import Mathlib

/-!
Verification development for the tigerflow pipeline supervisor.

The Python sources under `src/tigerflow/` are embedded shallowly: pure string
manipulation becomes Lean functions on `String`, directory contents become
lists of entries, filesystem mutation becomes explicit state passing, and
Python exceptions become `Except`/`Option` results.  Every definition mirrors
a named function or method of the source; the docstring of each definition
names the file it comes from.
-/

set_option autoImplicit false

namespace Tigerflow

/-! ### Python string primitives

Helpers mirroring the Python `str` operations used throughout the code base.
Strings are handled through their character lists, which matches Python
semantics for the ASCII file names involved.
-/

/-- Python `s.endswith(suffix)`. -/
def sEndsWith (s suffix : String) : Bool :=
  suffix.data.isSuffixOf s.data

/-- Python `s.removesuffix(suffix)`: drop the suffix when present, otherwise
return the string unchanged. -/
def sRemoveSuffix (s suffix : String) : String :=
  if sEndsWith s suffix then ⟨s.data.take (s.data.length - suffix.data.length)⟩
  else s

/-- Python `s.lower()` (ASCII case folding, which covers file extensions). -/
def sToLower (s : String) : String :=
  ⟨s.data.map Char.toLower⟩

/-! ### `utils.validate_file_ext` (src/tigerflow/utils.py)

The regex `(\.[a-zA-Z0-9_]+)+` is embedded as a recursive character-list
matcher: one or more groups, each a dot followed by one or more word
characters. -/

/-- A character matched by `[a-zA-Z0-9_]`. -/
def isWordChar (c : Char) : Bool :=
  c.isAlpha || c.isDigit || c = '_'

/-- Matcher state after the leading `.w` of a group: consume further word
characters or start a new `.w...` group. -/
def extRun : List Char → Bool
  | [] => true
  | '.' :: rest =>
    match rest with
    | [] => false
    | c :: r => isWordChar c && extRun r
  | c :: r => isWordChar c && extRun r

/-- Full match of `(\.[a-zA-Z0-9_]+)+` on a character list. -/
def extFullmatch : List Char → Bool
  | '.' :: c :: r => isWordChar c && extRun r
  | _ => false

/-- `utils.validate_file_ext`: the extension must match the regex and must not
end in the reserved `.err` (checked case-insensitively).  The Python function
raises `ValueError` on failure; we model it by its acceptance condition. -/
def validate_file_ext (ext : String) : Bool :=
  extFullmatch ext.data && !(sEndsWith (sToLower ext) ".err")

/-! ### `utils.read_pid_file`, `utils.is_process_running`,
`utils.check_and_cleanup_stale_pid` (src/tigerflow/utils.py)

The PID file is a value of type `Option String` (`none` = file absent), and
the operating system's `os.kill(pid, 0)` probe is a function from PIDs to the
three observable outcomes. -/

/-- Outcome of `os.kill(pid, 0)`. -/
inductive KillProbe where
  | ok            -- no exception: process exists and is signalable
  | noProcess     -- ProcessLookupError
  | permDenied    -- PermissionError
  deriving DecidableEq, Repr

/-- Whitespace stripped by Python `str.strip()` / `int()` (the ASCII cases). -/
def pyIsSpace (c : Char) : Bool :=
  c = ' ' || c = '\t' || c = '\n' || c = '\r'

/-- Strip leading and trailing whitespace from a character list. -/
def stripWs (l : List Char) : List Char :=
  ((l.dropWhile pyIsSpace).reverse.dropWhile pyIsSpace).reverse

/-- Parse a non-empty all-digit character list as a natural number. -/
def parseNatDigits : List Char → Option Nat
  | [] => none
  | cs =>
    if cs.all Char.isDigit then
      some (cs.foldl (fun a c => a * 10 + (c.toNat - 48)) 0)
    else none

/-- Python `int(s)` on the stripped file content, as used by
`read_pid_file`: optional sign followed by digits; parse failure is `none`
(the `ValueError` branch). -/
def pyParseInt (s : String) : Option Int :=
  match stripWs s.data with
  | '-' :: rest => (parseNatDigits rest).map (fun n => -(n : Int))
  | '+' :: rest => (parseNatDigits rest).map (fun n => (n : Int))
  | l => (parseNatDigits l).map (fun n => (n : Int))

/-- `utils.read_pid_file`: `none` when the file does not exist or its content
does not parse as an integer. -/
def read_pid_file (file : Option String) : Option Int :=
  file.bind pyParseInt

/-- `utils.is_process_running`: `os.kill(pid, 0)`; `PermissionError` counts as
running. -/
def is_process_running (probe : Int → KillProbe) (pid : Int) : Bool :=
  match probe pid with
  | .ok => true
  | .noProcess => false
  | .permDenied => true

/-- `utils.check_and_cleanup_stale_pid`: returns the boolean result together
with the PID file state after the call (`none` = file absent/unlinked). -/
def check_and_cleanup_stale_pid (file : Option String) (probe : Int → KillProbe) :
    Bool × Option String :=
  match read_pid_file file with
  | none => (false, file)
  | some pid =>
    if is_process_running probe pid then (true, file)
    else (false, none)

/-! ### `utils.SetupContext` (src/tigerflow/utils.py)

A `SimpleNamespace` whose attributes live in a dictionary; `_frozen` is held
as a dedicated field standing for the `_frozen` attribute consulted through
`getattr(self, "_frozen", False)`. Attribute values are opaque strings. -/

/-- Python values stored in the namespace; only truthiness of booleans and
strings is ever consulted. -/
inductive PyVal where
  | bool (b : Bool)
  | str (s : String)
  deriving DecidableEq, Repr

/-- Python truthiness for the modelled values. -/
def pyTruthy : PyVal → Bool
  | .bool b => b
  | .str s => !s.isEmpty

/-- The namespace state: the attribute dictionary (association list). -/
def Attrs := List (String × PyVal)

instance : DecidableEq Attrs := inferInstanceAs (DecidableEq (List (String × PyVal)))

/-- Dictionary lookup. -/
def attrsGet (a : Attrs) (k : String) : Option PyVal :=
  match a with
  | [] => none
  | (k', v) :: rest => if k' = k then some v else attrsGet rest k

/-- Dictionary update-or-insert (canonical form: remove then prepend). -/
def attrsSet (a : Attrs) (k : String) (v : PyVal) : Attrs :=
  (k, v) :: a.filter (fun p => p.1 ≠ k)

/-- Dictionary delete. -/
def attrsDel (a : Attrs) (k : String) : Attrs :=
  a.filter (fun p => p.1 ≠ k)

/-- `getattr(self, "_frozen", False)` followed by the `if` truthiness test. -/
def isFrozen (a : Attrs) : Bool :=
  match attrsGet a "_frozen" with
  | some v => pyTruthy v
  | none => false

/-- The Python errors surfaced by the modelled code. -/
inductive PyErr where
  | attributeError
  | fileNotFoundError
  | typeError
  deriving DecidableEq, Repr

/-- Operations performed on a `SetupContext` after construction. -/
inductive CtxOp where
  | setAttr (k : String) (v : PyVal)   -- `ctx.k = v`  (SetupContext.__setattr__)
  | delAttr (k : String)               -- `del ctx.k`  (SetupContext.__delattr__)
  | freeze                             -- `ctx.freeze()`
  deriving Repr

/-- One operation on the namespace.  `__setattr__` and `__delattr__` raise
`AttributeError` when `_frozen` is truthy; `freeze` assigns `_frozen = True`
through `__setattr__` itself.  `SimpleNamespace.__delattr__` raises
`AttributeError` for a missing attribute. -/
def ctxStep (a : Attrs) : CtxOp → Except PyErr Attrs
  | .setAttr k v =>
    if isFrozen a then .error .attributeError
    else .ok (attrsSet a k v)
  | .delAttr k =>
    if isFrozen a then .error .attributeError
    else
      match attrsGet a k with
      | none => .error .attributeError
      | some _ => .ok (attrsDel a k)
  | .freeze =>
    if isFrozen a then .error .attributeError
    else .ok (attrsSet a "_frozen" (.bool true))

/-- `SetupContext.__init__(**kwargs)`: the keyword attributes plus
`_frozen = False`. -/
def ctxInit (kwargs : List (String × PyVal)) : Attrs :=
  attrsSet kwargs "_frozen" (.bool false)

/-- Drive a sequence of operations; an operation that raises leaves the
object unchanged (a raise in `__setattr__`/`__delattr__` happens before any
mutation). -/
def ctxRun (a : Attrs) : List CtxOp → Attrs
  | [] => a
  | op :: ops =>
    match ctxStep a op with
    | .ok a' => ctxRun a' ops
    | .error _ => ctxRun a ops

theorem ctxRun_frozen_fix (a : Attrs) (h : isFrozen a = true) :
    ∀ ops : List CtxOp, ctxRun a ops = a := by
  intro ops
  induction ops with
  | nil => rfl
  | cons op ops ih =>
    cases op <;> simp [ctxRun, ctxStep, h, ih]

/-- C9: Once `SetupContext.freeze()` has been called the context is
permanently immutable: every later attribute assignment or deletion
(including any attempt to reassign `_frozen` itself, and a second `freeze`)
raises `AttributeError`, and the stored state is preserved by every later
sequence of operations. -/
theorem tf_C9 (a : Attrs) (h : isFrozen a = true) :
    (∀ op : CtxOp, ctxStep a op = .error .attributeError)
    ∧ (∀ ops : List CtxOp, ctxRun a ops = a)
    ∧ isFrozen a = true := by
  refine ⟨?_, ctxRun_frozen_fix a h, h⟩
  intro op
  cases op <;> simp [ctxStep, h]

/-- Witness for C9 at a concrete frozen context: freezing
`SetupContext(color="red")` blocks a later assignment and any operation
sequence leaves the state unchanged. -/
theorem tf_C9_witness :
    ctxStep (ctxRun (ctxInit [("color", .str "red")]) [CtxOp.freeze])
        (CtxOp.setAttr "color" (.str "blue")) = .error .attributeError
    ∧ ctxRun (ctxRun (ctxInit [("color", .str "red")]) [CtxOp.freeze])
        [CtxOp.setAttr "x" (.bool true), CtxOp.delAttr "color", CtxOp.freeze]
      = ctxRun (ctxInit [("color", .str "red")]) [CtxOp.freeze] := by
  have h := tf_C9 (ctxRun (ctxInit [("color", .str "red")]) [CtxOp.freeze]) (by decide)
  exact ⟨h.1 (CtxOp.setAttr "color" (.str "blue")), h.2.1 _⟩

/-! ### Theorems for claim C7 (`check_and_cleanup_stale_pid`) -/

/-- C7 counterexample: with a PID file present whose content `"abc"` does not
parse as an integer, `check_and_cleanup_stale_pid` returns `false` but leaves
the stale file in place, contradicting the claim that whenever it returns
`false` with a dead-or-unparseable PID file present the file is removed. -/
theorem tf_C7_counterexample :
    check_and_cleanup_stale_pid (some "abc") (fun _ => KillProbe.noProcess)
      = (false, some "abc")
    ∧ pyParseInt "abc" = none := by
  constructor <;> decide

/-- C7 (amended): `check_and_cleanup_stale_pid(path)` returns `true` iff the
file exists, parses as an integer PID, and that PID refers to a running
process (permission-denied counting as running); the file is removed exactly
when it parses to a PID of a dead process — a present but unparseable file is
left in place (and an absent file stays absent). -/
theorem tf_C7 (file : Option String) (probe : Int → KillProbe) :
    ((check_and_cleanup_stale_pid file probe).1 = true
      ↔ ∃ s pid, file = some s ∧ pyParseInt s = some pid
          ∧ is_process_running probe pid = true)
    ∧ (∀ s pid, file = some s → pyParseInt s = some pid →
        is_process_running probe pid = false →
        (check_and_cleanup_stale_pid file probe).2 = none)
    ∧ (read_pid_file file = none → (check_and_cleanup_stale_pid file probe).2 = file)
    ∧ (∀ s pid, file = some s → pyParseInt s = some pid →
        is_process_running probe pid = true →
        (check_and_cleanup_stale_pid file probe).2 = file) := by
  cases file with
  | none =>
    refine ⟨by simp [check_and_cleanup_stale_pid, read_pid_file], ?_, fun _ => rfl, ?_⟩
    · intro s pid hs
      exact absurd hs (by simp)
    · intro s pid hs
      exact absurd hs (by simp)
  | some s =>
    cases hp : pyParseInt s with
    | none =>
      have hrd : read_pid_file (some s) = none := hp
      refine ⟨?_, ?_, ?_, ?_⟩
      · rw [check_and_cleanup_stale_pid, hrd]
        simp only [Bool.false_eq_true, false_iff]
        rintro ⟨s', pid', hs', hp', _⟩
        obtain rfl : s' = s := by injection hs' with h; exact h.symm
        rw [hp] at hp'
        exact absurd hp' (by simp)
      · intro s' pid' hs' hp' _
        obtain rfl : s' = s := by injection hs' with h; exact h.symm
        rw [hp] at hp'
        exact absurd hp' (by simp)
      · intro _
        rw [check_and_cleanup_stale_pid, hrd]
      · intro s' pid' hs' hp' _
        obtain rfl : s' = s := by injection hs' with h; exact h.symm
        rw [hp] at hp'
        exact absurd hp' (by simp)
    | some pid =>
      have hrd : read_pid_file (some s) = some pid := hp
      cases hr : is_process_running probe pid with
      | false =>
        refine ⟨?_, ?_, ?_, ?_⟩
        · rw [check_and_cleanup_stale_pid, hrd]
          simp only [hr, Bool.false_eq_true, if_false, false_iff]
          rintro ⟨s', pid', hs', hp', hr'⟩
          obtain rfl : s' = s := by injection hs' with h; exact h.symm
          rw [hp] at hp'
          obtain rfl : pid' = pid := by injection hp' with h; exact h.symm
          rw [hr] at hr'
          exact absurd hr' (by simp)
        · intro _ _ _ _ _
          rw [check_and_cleanup_stale_pid, hrd]
          simp [hr]
        · intro h
          rw [hrd] at h
          exact absurd h (by simp)
        · intro s' pid' hs' hp' hr'
          obtain rfl : s' = s := by injection hs' with h; exact h.symm
          rw [hp] at hp'
          obtain rfl : pid' = pid := by injection hp' with h; exact h.symm
          rw [hr] at hr'
          exact absurd hr' (by simp)
      | true =>
        refine ⟨?_, ?_, ?_, ?_⟩
        · rw [check_and_cleanup_stale_pid, hrd]
          simp only [hr, if_true, true_iff]
          exact ⟨s, pid, rfl, hp, hr⟩
        · intro s' pid' hs' hp' hr'
          obtain rfl : s' = s := by injection hs' with h; exact h.symm
          rw [hp] at hp'
          obtain rfl : pid' = pid := by injection hp' with h; exact h.symm
          rw [hr] at hr'
          exact absurd hr' (by simp)
        · intro h
          rw [hrd] at h
          exact absurd h (by simp)
        · intro _ _ _ _ _
          rw [check_and_cleanup_stale_pid, hrd]
          simp [hr]

/-! ### A single-directory filesystem

`atomic_write` and the task runtimes operate inside one directory; its state
is an association list from file name to file content.  `fsSet` keeps the
list canonical (no duplicate keys). -/

/-- Directory state: file name to content. -/
def FS := List (String × String)

instance : DecidableEq FS := inferInstanceAs (DecidableEq (List (String × String)))

/-- Content of a file, `none` when absent. -/
def fsGet (fs : FS) (k : String) : Option String :=
  match fs with
  | [] => none
  | (k', v) :: rest => if k' = k then some v else fsGet rest k

/-- Create or overwrite a file. -/
def fsSet (fs : FS) (k : String) (v : String) : FS :=
  (k, v) :: fs.filter (fun p => p.1 ≠ k)

/-- Remove a file (no-op when absent, like `unlink(missing_ok=True)`). -/
def fsErase (fs : FS) (k : String) : FS :=
  fs.filter (fun p => p.1 ≠ k)

theorem fsGet_fsSet_self (fs : FS) (k v : String) : fsGet (fsSet fs k v) k = some v := by
  simp [fsGet, fsSet]

theorem fsGet_filter_ne (fs : FS) (k k' : String) (h : k' ≠ k) :
    fsGet (fs.filter (fun p => p.1 ≠ k)) k' = fsGet fs k' := by
  induction fs with
  | nil => rfl
  | cons p rest ih =>
    obtain ⟨a, v⟩ := p
    by_cases hak : a = k
    · rw [List.filter_cons_of_neg (by simp [hak]), ih, fsGet,
        if_neg (fun he : a = k' => h (he ▸ hak))]
    · rw [List.filter_cons_of_pos (by simp [hak]), fsGet, fsGet]
      by_cases hak' : a = k'
      · rw [if_pos hak', if_pos hak']
      · rw [if_neg hak', if_neg hak', ih]

theorem fsGet_fsSet_ne (fs : FS) (k v k' : String) (h : k' ≠ k) :
    fsGet (fsSet fs k v) k' = fsGet fs k' := by
  simp only [fsSet, fsGet]
  rw [if_neg (fun he => h he.symm)]
  exact fsGet_filter_ne fs k k' h

theorem fsGet_fsErase_self (fs : FS) (k : String) : fsGet (fsErase fs k) k = none := by
  induction fs with
  | nil => rfl
  | cons p rest ih =>
    by_cases hpk : p.1 = k
    · simp [fsErase, List.filter, hpk] at ih ⊢
      exact ih
    · simp [fsErase, List.filter, fsGet, hpk] at ih ⊢
      exact ih

theorem fsGet_fsErase_ne (fs : FS) (k k' : String) (h : k' ≠ k) :
    fsGet (fsErase fs k) k' = fsGet fs k' :=
  fsGet_filter_ne fs k k' h

theorem fsErase_of_not_mem (fs : FS) (k : String) (h : fsGet fs k = none) :
    fsErase fs k = fs := by
  induction fs with
  | nil => rfl
  | cons p rest ih =>
    obtain ⟨a, v⟩ := p
    rw [fsGet] at h
    by_cases hak : a = k
    · rw [if_pos hak] at h
      exact absurd h (by simp)
    · rw [if_neg hak] at h
      show List.filter _ ((a, v) :: rest) = _
      rw [List.filter_cons_of_pos (by simp [hak])]
      exact congrArg ((a, v) :: ·) (ih h)

theorem fsErase_fsSet_self (fs : FS) (k v : String) :
    fsErase (fsSet fs k v) k = fsErase fs k := by
  simp [fsErase, fsSet, List.filter]

/-! ### `utils.atomic_write` (src/tigerflow/utils.py)

The context manager: `mkstemp` creates an empty temporary file in the target
directory, the caller writes to it (modelled as the successive contents
`writes` of the temporary file, ending normally or with an exception), and
on success `temp_path.replace(filepath)` atomically renames it onto the
target; on exception the temporary is unlinked and the exception
propagates. -/

/-- The directory states while the callback is writing: after `mkstemp` the
temporary exists empty, then it successively holds each element of
`writes`. -/
def callbackStates (fs : FS) (tmp : String) : List String → List FS
  | [] => []
  | w :: ws =>
    let fs' := fsSet fs tmp w
    fs' :: callbackStates fs' tmp ws

/-- Directory state when the callback finishes (successfully or not): the
last element of `callbackStates` (or the entry state when no write
happened). -/
def callbackFinal (fs : FS) (tmp : String) : List String → FS
  | [] => fs
  | w :: ws => callbackFinal (fsSet fs tmp w) tmp ws

/-- `atomic_write`: final directory state and propagated exception (`none`
when the callback returned normally).  `exc = some e` is the `except` branch
(`temp_path.unlink(missing_ok=True)` then re-raise); `exc = none` is the
`else` branch (`temp_path.replace(filepath)`). -/
def atomic_write (fs : FS) (target tmp : String) (writes : List String)
    (exc : Option String) : Option String × FS :=
  let fs1 := fsSet fs tmp ""
  let fsEnd := callbackFinal fs1 tmp writes
  match exc with
  | some e => (some e, fsErase fsEnd tmp)
  | none =>
    let content := (fsGet fsEnd tmp).getD ""
    (none, fsErase (fsSet fsEnd target content) tmp)

/-- Every directory state observable during an `atomic_write` run: before,
after `mkstemp`, during the callback's writes, and after the context
manager finishes. -/
def atomic_write_trace (fs : FS) (target tmp : String) (writes : List String)
    (exc : Option String) : List FS :=
  let fs1 := fsSet fs tmp ""
  fs :: fs1 :: callbackStates fs1 tmp writes
    ++ [(atomic_write fs target tmp writes exc).2]

theorem callbackStates_get_ne (fs : FS) (tmp k : String) (h : k ≠ tmp)
    (writes : List String) :
    ∀ s ∈ callbackStates fs tmp writes, fsGet s k = fsGet fs k := by
  induction writes generalizing fs with
  | nil => intro s hs; exact absurd hs (by simp [callbackStates])
  | cons w ws ih =>
    intro s hs
    rw [callbackStates] at hs
    rcases List.mem_cons.mp hs with rfl | hs'
    · exact fsGet_fsSet_ne fs tmp w k h
    · rw [ih (fsSet fs tmp w) s hs', fsGet_fsSet_ne fs tmp w k h]

theorem callbackFinal_get_ne (fs : FS) (tmp k : String) (h : k ≠ tmp)
    (writes : List String) :
    fsGet (callbackFinal fs tmp writes) k = fsGet fs k := by
  induction writes generalizing fs with
  | nil => rfl
  | cons w ws ih =>
    rw [callbackFinal, ih (fsSet fs tmp w), fsGet_fsSet_ne fs tmp w k h]

theorem callbackFinal_tmp (fs : FS) (tmp : String) (writes : List String)
    (c : String) (hc : fsGet fs tmp = some c) :
    fsGet (callbackFinal fs tmp writes) tmp = some (writes.getLast?.getD c) := by
  induction writes generalizing fs c with
  | nil => simpa using hc
  | cons x ws ih =>
    rw [callbackFinal, ih (fsSet fs tmp x) x (fsGet_fsSet_self fs tmp x)]
    cases ws with
    | nil => rfl
    | cons y ys =>
      rw [List.getLast?_cons_cons]
      have hy : ∃ a, (y :: ys).getLast? = some a :=
        Option.isSome_iff_exists.mp (List.getLast?_isSome.mpr (by simp))
      obtain ⟨a, ha⟩ := hy
      rw [ha]
      rfl

theorem filter_ne_idem (l : FS) (k : String) :
    (l.filter (fun p => p.1 ≠ k)).filter (fun p => p.1 ≠ k)
      = l.filter (fun p => p.1 ≠ k) := by
  induction l with
  | nil => rfl
  | cons p rest ih =>
    by_cases hpk : p.1 = k
    · rw [List.filter_cons_of_neg (by simp [hpk]), ih]
    · rw [List.filter_cons_of_pos (by simp [hpk]),
        List.filter_cons_of_pos (by simp [hpk]), ih]

theorem fsSet_fsSet_self (fs : FS) (k c w : String) :
    fsSet (fsSet fs k c) k w = fsSet fs k w := by
  show (k, w) :: List.filter _ ((k, c) :: List.filter _ fs) = _
  rw [List.filter_cons_of_neg (by simp), filter_ne_idem]
  rfl

theorem callbackFinal_fsSet (fs : FS) (tmp c : String) (writes : List String) :
    callbackFinal (fsSet fs tmp c) tmp writes
      = fsSet fs tmp (writes.getLast?.getD c) := by
  induction writes generalizing c with
  | nil => rfl
  | cons x ws ih =>
    rw [callbackFinal, fsSet_fsSet_self, ih x]
    cases ws with
    | nil => rfl
    | cons y ys =>
      rw [List.getLast?_cons_cons]
      obtain ⟨a, ha⟩ :=
        Option.isSome_iff_exists.mp (List.getLast?_isSome.mpr
          (show (y :: ys) ≠ [] by simp))
      rw [ha]
      rfl

/-- C1: `atomic_write` hands the callback a fresh temporary sibling of the
target; if the callback raises, the temporary is removed, the exception
propagates, and the directory — in particular the target's prior content or
absence — is restored exactly; if it returns normally, the target
atomically receives the complete final content of the temporary, the
temporary is gone, all other files are untouched; and in every observable
intermediate state the target holds either its prior content or the complete
new content, never a partial write. -/
theorem tf_C1 (fs : FS) (target tmp : String) (writes : List String)
    (exc : Option String) (hfresh : fsGet fs tmp = none) (hne : tmp ≠ target) :
    (∀ e, exc = some e → atomic_write fs target tmp writes exc = (some e, fs))
    ∧ (exc = none →
        (atomic_write fs target tmp writes exc).1 = none
        ∧ fsGet (atomic_write fs target tmp writes exc).2 target
            = some (writes.getLast?.getD "")
        ∧ fsGet (atomic_write fs target tmp writes exc).2 tmp = none
        ∧ (∀ k, k ≠ target → k ≠ tmp →
            fsGet (atomic_write fs target tmp writes exc).2 k = fsGet fs k))
    ∧ (∀ s ∈ atomic_write_trace fs target tmp writes exc,
        fsGet s target = fsGet fs target
        ∨ (exc = none ∧ fsGet s target = some (writes.getLast?.getD ""))) := by
  have hEnd : callbackFinal (fsSet fs tmp "") tmp writes
      = fsSet fs tmp (writes.getLast?.getD "") := callbackFinal_fsSet fs tmp "" writes
  have htne : target ≠ tmp := fun he => hne he.symm
  have hErr : ∀ e, exc = some e → atomic_write fs target tmp writes exc = (some e, fs) := by
    intro e he
    subst he
    show (some e, fsErase (callbackFinal (fsSet fs tmp "") tmp writes) tmp) = _
    rw [hEnd, fsErase_fsSet_self, fsErase_of_not_mem fs tmp hfresh]
  have hOk : exc = none →
      (atomic_write fs target tmp writes exc).2
        = fsErase (fsSet (fsSet fs tmp (writes.getLast?.getD ""))
            target (writes.getLast?.getD "")) tmp := by
    intro he
    subst he
    show fsErase (fsSet (callbackFinal (fsSet fs tmp "") tmp writes) target _) tmp = _
    rw [hEnd, fsGet_fsSet_self]
    rfl
  refine ⟨hErr, ?_, ?_⟩
  · intro he
    rw [hOk he]
    subst he
    refine ⟨rfl, ?_, ?_, ?_⟩
    · rw [fsGet_fsErase_ne _ tmp target htne, fsGet_fsSet_self]
    · exact fsGet_fsErase_self _ tmp
    · intro k hkt hktmp
      rw [fsGet_fsErase_ne _ tmp k hktmp, fsGet_fsSet_ne _ target _ k hkt,
        fsGet_fsSet_ne _ tmp _ k hktmp]
  · intro s hs
    rw [atomic_write_trace] at hs
    rcases List.mem_cons.mp hs with rfl | hs
    · exact Or.inl rfl
    rcases List.mem_cons.mp hs with rfl | hs
    · exact Or.inl (fsGet_fsSet_ne fs tmp "" target htne)
    rcases List.mem_append.mp hs with hs | hs
    · exact Or.inl (by
        rw [callbackStates_get_ne (fsSet fs tmp "") tmp target htne writes s hs,
          fsGet_fsSet_ne fs tmp "" target htne])
    · have hlast : s = (atomic_write fs target tmp writes exc).2 :=
        List.mem_singleton.mp hs
      subst hlast
      cases exc with
      | some e =>
        rw [hErr e rfl]
        exact Or.inl rfl
      | none =>
        refine Or.inr ⟨rfl, ?_⟩
        rw [hOk rfl, fsGet_fsErase_ne _ tmp target htne, fsGet_fsSet_self]

/-- Witness for C1 at a concrete directory: a failing callback leaves the
prior content in place and propagates the error; a successful callback
installs the complete final content. -/
theorem tf_C1_witness :
    atomic_write [("p.out", "old")] "p.out" "tmp0" ["pa", "part"] (some "boom")
      = (some "boom", [("p.out", "old")])
    ∧ fsGet (atomic_write [("p.out", "old")] "p.out" "tmp0" ["pa", "part"] none).2 "p.out"
      = some "part" := by
  refine ⟨(tf_C1 [("p.out", "old")] "p.out" "tmp0" ["pa", "part"] (some "boom")
    (by decide) (by decide)).1 "boom" rfl, ?_⟩
  have h := (tf_C1 [("p.out", "old")] "p.out" "tmp0" ["pa", "part"] none
    (by decide) (by decide)).2.1 rfl
  exact h.2.1

/-! ### `pathlib.Path.suffix` and `with_suffix`

`Path.suffix` returns `name[i:]` for the last dot index `i` when
`0 < i < len(name) - 1`, otherwise the empty string; `with_suffix` strips the
old suffix and appends the new one. -/

/-- Index of the last `'.'` in a character list, counting from `start`. -/
def lastDotIdx : List Char → Nat → Option Nat
  | [], _ => none
  | c :: rest, i =>
    match lastDotIdx rest (i + 1) with
    | some j => some j
    | none => if c = '.' then some i else none

/-- `pathlib.Path(name).suffix`. -/
def pathSuffix (name : String) : String :=
  match lastDotIdx name.data 0 with
  | some i =>
    if 0 < i ∧ i < name.data.length - 1 then ⟨name.data.drop i⟩ else ""
  | none => ""

/-- `pathlib.Path(name).with_suffix(ext)` (on the file name). -/
def withSuffix (name ext : String) : String :=
  ⟨name.data.take (name.data.length - (pathSuffix name).data.length)⟩ ++ ext

/-! ### Staging middleware (src/tigerflow/staging.py)

Candidate files carry the metadata `stat()` exposes to the filters; the
pipeline-state snapshot is the frozen `PipelineState` dataclass.  The
compiled regex of `FilenameMatchFilter.__call__` is abstracted as a Boolean
predicate on names, and the user function of `CallableMiddleware` as an
opaque function whose exceptions are the `Except.error` case. -/

/-- A candidate input file as seen by the staging filters. -/
structure SFile where
  name : String
  size : Nat
  mtime : Int
  deriving DecidableEq, Repr

/-- `staging.PipelineState` (the fields the middleware reads). -/
structure PState where
  waiting : Nat
  staged : Nat
  completed : Nat
  failed : Nat
  deriving DecidableEq, Repr

/-- Ambient data for a staging run: the current time, the set of existing
file names in the input directory (for `CompanionFileFilter`), and the
pipeline-state snapshot. -/
structure StagingEnv where
  now : Int
  fsNames : List String
  state : PState

/-- `SortBy.key`. -/
inductive SortKey where
  | name
  | size
  | mtime
  deriving DecidableEq, Repr

/-- The comparison used by Python `sorted(candidates, key=..., reverse=...)`. -/
def sortLe (key : SortKey) (rev : Bool) (a b : SFile) : Bool :=
  let le :=
    match key with
    | .name => decide (a.name < b.name) || decide (a.name = b.name)
    | .size => decide (a.size ≤ b.size)
    | .mtime => decide (a.mtime ≤ b.mtime)
  let ge :=
    match key with
    | .name => decide (b.name < a.name) || decide (b.name = a.name)
    | .size => decide (b.size ≤ a.size)
    | .mtime => decide (b.mtime ≤ a.mtime)
  if rev then ge else le

/-- One step of the staging chain: the `kind`-discriminated middleware
configurations of staging.py. -/
inductive StagingStep where
  | min_size (bytes : Nat)
  | max_size (bytes : Nat)
  | min_age (seconds : Nat)
  | filename_match (search : String → Bool)
  | companion_file (ext : String)
  | max_staged (count : Nat)
  | max_batch (count : Nat)
  | sort_by (key : SortKey) (rev : Bool)
  | callableMw (fn : List SFile → PState → Except String (List SFile))

/-- `__call__` of the corresponding middleware class. -/
def applyStep (env : StagingEnv) : StagingStep → List SFile → List SFile
  | .min_size bytes, cands => cands.filter (fun f => bytes ≤ f.size)
  | .max_size bytes, cands => cands.filter (fun f => f.size ≤ bytes)
  | .min_age seconds, cands =>
    cands.filter (fun f => (seconds : Int) ≤ env.now - f.mtime)
  | .filename_match search, cands => cands.filter (fun f => search f.name)
  | .companion_file ext, cands =>
    cands.filter (fun f => env.fsNames.contains (withSuffix f.name ext))
  | .max_staged count, cands =>
    -- remaining_capacity = max(0, count - state.staged): Nat subtraction
    cands.take (count - env.state.staged)
  | .max_batch count, cands => cands.take count
  | .sort_by key rev, cands => List.insertionSort (fun a b => sortLe key rev a b) cands
  | .callableMw fn, cands =>
    match fn cands env.state with
    | .ok result => result
    | .error _ => []   -- exception swallowed, logged, empty result

/-- `StagingPipeline.process`: run all steps in order, short-circuiting when
the candidate list becomes empty. -/
def StagingPipeline.process (env : StagingEnv) : List StagingStep → List SFile → List SFile
  | [], result => result
  | step :: rest, result =>
    let result' := applyStep env step result
    if result' = [] then result'
    else StagingPipeline.process env rest result'

/-- The five pure filter steps of the claim. -/
def isFilterStep : StagingStep → Bool
  | .min_size _ => true
  | .max_size _ => true
  | .min_age _ => true
  | .filename_match _ => true
  | .companion_file _ => true
  | _ => false

theorem applyStep_filter_sublist (env : StagingEnv) (step : StagingStep)
    (h : isFilterStep step = true) (cands : List SFile) :
    (applyStep env step cands).Sublist cands := by
  cases step <;> first
    | exact List.filter_sublist cands
    | exact absurd h (by simp [isFilterStep])

theorem process_filters_sublist (env : StagingEnv) (steps : List StagingStep)
    (h : ∀ step ∈ steps, isFilterStep step = true) (cands : List SFile) :
    (StagingPipeline.process env steps cands).Sublist cands := by
  induction steps generalizing cands with
  | nil => exact List.Sublist.refl cands
  | cons step rest ih =>
    rw [StagingPipeline.process]
    by_cases he : applyStep env step cands = []
    · simp only [he, if_pos rfl]
      exact List.nil_sublist cands
    · rw [if_neg he]
      exact List.Sublist.trans
        (ih (fun s hs => h s (List.mem_cons_of_mem step hs)) (applyStep env step cands))
        (applyStep_filter_sublist env step (h step (List.mem_cons_self step rest)) cands)

/-- C6: (i) a chain made only of the pure filter steps (`min_size`,
`max_size`, `min_age`, `filename_match`, `companion_file`) always returns a
subset of its input, whatever the order of the steps; (ii) one application of
`max_batch N` or `max_staged N` returns at most `N` files; (iii) `sort_by`
returns a permutation of its input. -/
theorem tf_C6 (env : StagingEnv) (steps : List StagingStep) (cands : List SFile) :
    ((∀ step ∈ steps, isFilterStep step = true) →
      StagingPipeline.process env steps cands ⊆ cands)
    ∧ (∀ n, (applyStep env (.max_batch n) cands).length ≤ n
        ∧ (applyStep env (.max_staged n) cands).length ≤ n)
    ∧ (∀ key rev, (applyStep env (.sort_by key rev) cands).Perm cands) := by
  refine ⟨fun h => (process_filters_sublist env steps h cands).subset, ?_, ?_⟩
  · intro n
    constructor
    · simp only [applyStep, List.length_take]
      exact min_le_left _ _
    · simp only [applyStep, List.length_take]
      exact le_trans (min_le_left _ _) (Nat.sub_le n env.state.staged)
  · intro key rev
    exact List.perm_insertionSort (fun a b => sortLe key rev a b = true) cands

/-- Witness for C6: a concrete two-filter chain yields a subset; the limits
and the sort behave on a concrete candidate list. -/
theorem tf_C6_witness :
    StagingPipeline.process ⟨100, [], ⟨0, 2, 0, 0⟩⟩
        [.min_size 2, .max_size 5]
        [⟨"a.txt", 1, 0⟩, ⟨"b.txt", 3, 0⟩, ⟨"c.txt", 9, 0⟩]
      ⊆ [⟨"a.txt", 1, 0⟩, ⟨"b.txt", 3, 0⟩, ⟨"c.txt", 9, 0⟩]
    ∧ (applyStep ⟨100, [], ⟨0, 2, 0, 0⟩⟩ (.max_batch 2)
        [⟨"a.txt", 1, 0⟩, ⟨"b.txt", 3, 0⟩, ⟨"c.txt", 9, 0⟩]).length ≤ 2
    ∧ (applyStep ⟨100, [], ⟨0, 2, 0, 0⟩⟩ (.sort_by .size true)
        [⟨"a.txt", 1, 0⟩, ⟨"b.txt", 3, 0⟩, ⟨"c.txt", 9, 0⟩]).Perm
      [⟨"a.txt", 1, 0⟩, ⟨"b.txt", 3, 0⟩, ⟨"c.txt", 9, 0⟩] := by
  have h := tf_C6 ⟨100, [], ⟨0, 2, 0, 0⟩⟩ [.min_size 2, .max_size 5]
    [⟨"a.txt", 1, 0⟩, ⟨"b.txt", 3, 0⟩, ⟨"c.txt", 9, 0⟩]
  refine ⟨h.1 ?_, (h.2.1 2).1, h.2.2 .size true⟩
  intro step hs
  rcases List.mem_cons.mp hs with rfl | hs
  · rfl
  rcases List.mem_cons.mp hs with rfl | hs
  · rfl
  · exact absurd hs (List.not_mem_nil step)

/-! ### `Pipeline._stage_new_files` (src/tigerflow/pipeline.py)

One supervisor tick over the input directory listing: each entry that is a
regular file, ends in the root task's `input_ext`, and is not yet in
`self._filenames` gets a symlink under `.symlinks/` and its name is added to
`self._filenames`.  The result is the list of names symlinked this tick
together with the updated name set (modelled as a list). -/

/-- A directory listing entry (`Path.iterdir()` element): its name and
whether `is_file()` holds. -/
structure DirEntry where
  name : String
  isFile : Bool
  deriving DecidableEq, Repr

/-- `Pipeline._stage_new_files`, lines 183-195 of pipeline.py. -/
def _stage_new_files (rootExt : String) :
    List DirEntry → List String → List String × List String
  | [], filenames => ([], filenames)
  | e :: rest, filenames =>
    if e.isFile && sEndsWith e.name rootExt && !(decide (e.name ∈ filenames)) then
      let r := _stage_new_files rootExt rest (filenames ++ [e.name])
      (e.name :: r.1, r.2)
    else
      _stage_new_files rootExt rest filenames

/-- C3 counterexample: with a `max_batch 1` staging chain configured and two
fresh candidate files, the chain would admit only `a.txt`, yet
`_stage_new_files` symlinks both files — the supervisor never consults the
staging middleware, so symlinks are not created "only for the files that
survive the chain". -/
theorem tf_C3_counterexample :
    (_stage_new_files ".txt" [⟨"a.txt", true⟩, ⟨"b.txt", true⟩] []).1
      = ["a.txt", "b.txt"]
    ∧ StagingPipeline.process ⟨0, [], ⟨2, 0, 0, 0⟩⟩ [.max_batch 1]
        [⟨"a.txt", 1, 0⟩, ⟨"b.txt", 1, 0⟩]
      = [⟨"a.txt", 1, 0⟩]
    ∧ "b.txt" ∈ (_stage_new_files ".txt" [⟨"a.txt", true⟩, ⟨"b.txt", true⟩] []).1
    ∧ "b.txt" ∉ (StagingPipeline.process ⟨0, [], ⟨2, 0, 0, 0⟩⟩ [.max_batch 1]
        [⟨"a.txt", 1, 0⟩, ⟨"b.txt", 1, 0⟩]).map SFile.name := by
  refine ⟨by decide, rfl, by decide, by decide⟩

/-- C3 (amended): on a supervisor tick, `_stage_new_files` symlinks exactly
the candidate files — the regular files matching the root `input_ext` whose
names are not yet tracked — unconditionally, adding each staged name to the
tracked set; no staging middleware chain is involved. -/
theorem tf_C3_amended (rootExt : String) (entries : List DirEntry)
    (filenames : List String) (h : (entries.map DirEntry.name).Nodup) :
    (_stage_new_files rootExt entries filenames).1
      = (entries.filter (fun e => e.isFile && sEndsWith e.name rootExt
          && !(decide (e.name ∈ filenames)))).map DirEntry.name
    ∧ (_stage_new_files rootExt entries filenames).2
      = filenames ++ (_stage_new_files rootExt entries filenames).1 := by
  induction entries generalizing filenames with
  | nil => exact ⟨rfl, by simp [_stage_new_files]⟩
  | cons e rest ih =>
    rw [List.map_cons, List.nodup_cons] at h
    obtain ⟨hname, hrest⟩ := h
    by_cases hc : (e.isFile && sEndsWith e.name rootExt
        && !(decide (e.name ∈ filenames))) = true
    · have heq : _stage_new_files rootExt (e :: rest) filenames
          = (e.name :: (_stage_new_files rootExt rest (filenames ++ [e.name])).1,
             (_stage_new_files rootExt rest (filenames ++ [e.name])).2) := by
        rw [_stage_new_files, if_pos hc]
      obtain ⟨ih1, ih2⟩ := ih (filenames ++ [e.name]) hrest
      have hfc : rest.filter (fun e' => e'.isFile && sEndsWith e'.name rootExt
            && !(decide (e'.name ∈ filenames ++ [e.name])))
          = rest.filter (fun e' => e'.isFile && sEndsWith e'.name rootExt
            && !(decide (e'.name ∈ filenames))) := by
        apply List.filter_congr
        intro e' he'
        have hne : e'.name ≠ e.name := by
          intro hxy
          exact hname (hxy ▸ List.mem_map_of_mem DirEntry.name he')
        have h1 : decide (e'.name ∈ filenames ++ [e.name])
            = decide (e'.name ∈ filenames) := by
          by_cases hm : e'.name ∈ filenames
          · rw [decide_eq_true (List.mem_append_left _ hm), decide_eq_true hm]
          · have hno : e'.name ∉ filenames ++ [e.name] := by
              intro hmm
              rcases List.mem_append.mp hmm with hz | hz
              · exact hm hz
              · exact hne (List.mem_singleton.mp hz)
            rw [decide_eq_false hno, decide_eq_false hm]
        rw [h1]
      have hfilter : (e :: rest).filter (fun e' => e'.isFile
            && sEndsWith e'.name rootExt && !(decide (e'.name ∈ filenames)))
          = e :: rest.filter (fun e' => e'.isFile
            && sEndsWith e'.name rootExt && !(decide (e'.name ∈ filenames))) :=
        List.filter_cons_of_pos hc
      constructor
      · rw [heq, hfilter, List.map_cons]
        rw [ih1, hfc]
      · rw [heq]
        show (_stage_new_files rootExt rest (filenames ++ [e.name])).2
          = filenames ++ (e.name :: (_stage_new_files rootExt rest (filenames ++ [e.name])).1)
        rw [ih2]
        simp
    · have heq : _stage_new_files rootExt (e :: rest) filenames
          = _stage_new_files rootExt rest filenames := by
        rw [_stage_new_files, if_neg hc]
      obtain ⟨ih1, ih2⟩ := ih filenames hrest
      have hfilter : (e :: rest).filter (fun e' => e'.isFile
            && sEndsWith e'.name rootExt && !(decide (e'.name ∈ filenames)))
          = rest.filter (fun e' => e'.isFile
            && sEndsWith e'.name rootExt && !(decide (e'.name ∈ filenames))) :=
        List.filter_cons_of_neg (by simpa using hc)
      rw [heq, hfilter]
      exact ⟨ih1, ih2⟩

/-- Witness for C3 (amended) on a concrete listing: one already-known file,
one non-matching file, one directory, and one fresh candidate. -/
theorem tf_C3_amended_witness :
    (_stage_new_files ".txt"
        [⟨"old.txt", true⟩, ⟨"notes.md", true⟩, ⟨"sub", false⟩, ⟨"new.txt", true⟩]
        ["old.txt"]).1
      = ([⟨"old.txt", true⟩, ⟨"notes.md", true⟩, ⟨"sub", false⟩,
          ⟨"new.txt", true⟩].filter (fun e => e.isFile && sEndsWith e.name ".txt"
            && !(decide (e.name ∈ ["old.txt"])))).map DirEntry.name
    ∧ (_stage_new_files ".txt"
        [⟨"old.txt", true⟩, ⟨"notes.md", true⟩, ⟨"sub", false⟩, ⟨"new.txt", true⟩]
        ["old.txt"]).2
      = ["old.txt"] ++ (_stage_new_files ".txt"
          [⟨"old.txt", true⟩, ⟨"notes.md", true⟩, ⟨"sub", false⟩, ⟨"new.txt", true⟩]
          ["old.txt"]).1 :=
  tf_C3_amended ".txt"
    [⟨"old.txt", true⟩, ⟨"notes.md", true⟩, ⟨"sub", false⟩, ⟨"new.txt", true⟩]
    ["old.txt"] (by decide)

/-! ### String facts about `.err` markers and validated extensions -/

theorem sEndsWith_iff {s t : String} : sEndsWith s t = true ↔ t.data <:+ s.data := by
  rw [sEndsWith]
  exact List.isSuffixOf_iff_suffix

theorem sEndsWith_append (s t : String) : sEndsWith (s ++ t) t = true := by
  rw [sEndsWith_iff, String.data_append]
  exact List.suffix_append s.data t.data

theorem err_data : (".err" : String).data = ['.', 'e', 'r', 'r'] := rfl

/-- A validated output extension is never a suffix of a name that ends in the
reserved `.err`: `validate_file_ext` rejects anything ending in `.err`, and
no proper suffix of `.err` matches the extension regex. -/
theorem not_endsWith_ext_of_endsWith_err (name ext : String)
    (hv : validate_file_ext ext = true) (he : sEndsWith name ".err" = true) :
    sEndsWith name ext = false := by
  by_contra hx
  have hx : sEndsWith name ext = true := by
    cases hq : sEndsWith name ext
    · exact absurd hq hx
    · rfl
  have hErr : ['.', 'e', 'r', 'r'] <:+ name.data := by
    have := sEndsWith_iff.mp he
    rwa [err_data] at this
  have hExt : ext.data <:+ name.data := sEndsWith_iff.mp hx
  rw [validate_file_ext, Bool.and_eq_true, Bool.not_eq_true'] at hv
  obtain ⟨hfull, hlow⟩ := hv
  rcases List.suffix_or_suffix_of_suffix hExt hErr with hA | hB
  · obtain ⟨t, ht⟩ := hA
    match t, ht with
    | [], ht =>
      rw [List.nil_append] at ht
      rw [ht] at hfull
      have : sEndsWith (sToLower ext) ".err" = true := by
        rw [sEndsWith_iff, err_data, sToLower]
        show _ <:+ List.map Char.toLower ext.data
        rw [ht]
        exact List.suffix_refl _
      rw [this] at hlow
      exact absurd hlow (by simp)
    | [a], ht =>
      rw [List.cons_append, List.nil_append] at ht
      injection ht with h1 h2
      rw [h2] at hfull
      exact absurd hfull (by decide)
    | [a, b], ht =>
      rw [List.cons_append, List.cons_append, List.nil_append] at ht
      injection ht with h1 ht
      injection ht with h2 ht
      rw [ht] at hfull
      exact absurd hfull (by decide)
    | [a, b, c], ht =>
      simp only [List.cons_append, List.nil_append, List.cons.injEq] at ht
      obtain ⟨-, -, -, ht⟩ := ht
      rw [ht] at hfull
      exact absurd hfull (by decide)
    | a :: b :: c :: d :: t', ht =>
      simp only [List.cons_append, List.cons.injEq] at ht
      obtain ⟨-, -, -, -, ht⟩ := ht
      have : ext.data = [] := (List.append_eq_nil.mp ht).2
      rw [this] at hfull
      exact absurd hfull (by decide)
  · have hmap : ['.', 'e', 'r', 'r'] <:+ (sToLower ext).data := by
      have := List.IsSuffix.map Char.toLower hB
      rwa [show List.map Char.toLower ['.', 'e', 'r', 'r'] = ['.', 'e', 'r', 'r']
        from by decide] at this
    have : sEndsWith (sToLower ext) ".err" = true := by
      rw [sEndsWith_iff, err_data]
      exact hmap
    rw [this] at hlow
    exact absurd hlow (by simp)

theorem lastDotIdx_append_err (l : List Char) (i : Nat) :
    lastDotIdx (l ++ ['.', 'e', 'r', 'r']) i = some (i + l.length) := by
  induction l generalizing i with
  | nil => simp [lastDotIdx]
  | cons c cs ih =>
    rw [List.cons_append, lastDotIdx, ih (i + 1)]
    simp only [List.length_cons]
    exact congrArg some (by omega)

/-- `Path(stem + ".err").suffix = ".err"` for any non-empty stem. -/
theorem pathSuffix_stem_err (stem : String) (h : stem ≠ "") :
    pathSuffix (stem ++ ".err") = ".err" := by
  have hdata : (stem ++ ".err").data = stem.data ++ ['.', 'e', 'r', 'r'] := by
    rw [String.data_append, err_data]
  have hlen : 0 < stem.data.length := by
    cases hd : stem.data with
    | nil => exact absurd (String.ext hd) h
    | cons a l => simp
  simp only [pathSuffix, hdata, lastDotIdx_append_err, Nat.zero_add]
  rw [if_pos ⟨hlen, by simp [List.length_append]⟩, List.drop_left]

/-! ### Startup cleanups (claim C8)

`Pipeline.__init__` (pipeline.py lines 93-97) sweeps every task output
directory, unlinking each regular file whose name does not end in that
task's `output_ext`; `Task._remove_temporary_files` (tasks/_base.py)
unlinks each regular file with an empty `Path.suffix`.  Both are modelled as
the surviving listing. -/

/-- The supervisor's output-directory sweep for one task
(pipeline.py lines 93-97): keep an entry unless it is a regular file that
does not end in `output_ext`. -/
def outputDirSweep (output_ext : String) : List DirEntry → List DirEntry
  | [] => []
  | e :: rest =>
    if e.isFile && !sEndsWith e.name output_ext then outputDirSweep output_ext rest
    else e :: outputDirSweep output_ext rest

/-- `Task._remove_temporary_files`: delete regular files whose `Path.suffix`
is empty. -/
def _remove_temporary_files : List DirEntry → List DirEntry
  | [] => []
  | e :: rest =>
    if e.isFile && decide (pathSuffix e.name = "") then _remove_temporary_files rest
    else e :: _remove_temporary_files rest

theorem mem_outputDirSweep (ext : String) (entries : List DirEntry) (e : DirEntry) :
    e ∈ outputDirSweep ext entries
      ↔ e ∈ entries ∧ (e.isFile = false ∨ sEndsWith e.name ext = true) := by
  induction entries with
  | nil => simp [outputDirSweep]
  | cons x rest ih =>
    rw [outputDirSweep]
    by_cases hc : (x.isFile && !sEndsWith x.name ext) = true
    · rw [if_pos hc, ih]
      rw [Bool.and_eq_true, Bool.not_eq_true'] at hc
      constructor
      · rintro ⟨hm, hk⟩
        exact ⟨List.mem_cons_of_mem x hm, hk⟩
      · rintro ⟨hm, hk⟩
        rcases List.mem_cons.mp hm with rfl | hm
        · rcases hk with hk | hk
          · rw [hc.1] at hk; exact absurd hk (by simp)
          · rw [hc.2] at hk; exact absurd hk (by simp)
        · exact ⟨hm, hk⟩
    · rw [if_neg hc]
      constructor
      · intro hm
        rcases List.mem_cons.mp hm with rfl | hm
        · refine ⟨List.mem_cons_self e rest, ?_⟩
          rcases Bool.and_eq_false_iff.mp (Bool.eq_false_iff.mpr hc) with hf | hf
          · exact Or.inl hf
          · exact Or.inr (by
              cases hq : sEndsWith e.name ext
              · rw [hq] at hf; exact absurd hf (by simp)
              · rfl)
        · obtain ⟨hm', hk⟩ := ih.mp hm
          exact ⟨List.mem_cons_of_mem x hm', hk⟩
      · rintro ⟨hm, hk⟩
        rcases List.mem_cons.mp hm with rfl | hm
        · exact List.mem_cons_self e _
        · exact List.mem_cons_of_mem x (ih.mpr ⟨hm, hk⟩)

theorem mem_remove_temporary_files (entries : List DirEntry) (e : DirEntry) :
    e ∈ _remove_temporary_files entries
      ↔ e ∈ entries ∧ (e.isFile = false ∨ pathSuffix e.name ≠ "") := by
  induction entries with
  | nil => simp [_remove_temporary_files]
  | cons x rest ih =>
    rw [_remove_temporary_files]
    by_cases hc : (x.isFile && decide (pathSuffix x.name = "")) = true
    · rw [if_pos hc, ih]
      rw [Bool.and_eq_true, decide_eq_true_eq] at hc
      constructor
      · rintro ⟨hm, hk⟩
        exact ⟨List.mem_cons_of_mem x hm, hk⟩
      · rintro ⟨hm, hk⟩
        rcases List.mem_cons.mp hm with rfl | hm
        · rcases hk with hk | hk
          · rw [hc.1] at hk; exact absurd hk (by simp)
          · exact absurd hc.2 hk
        · exact ⟨hm, hk⟩
    · rw [if_neg hc]
      constructor
      · intro hm
        rcases List.mem_cons.mp hm with rfl | hm
        · refine ⟨List.mem_cons_self e rest, ?_⟩
          rcases Bool.and_eq_false_iff.mp (Bool.eq_false_iff.mpr hc) with hf | hf
          · exact Or.inl hf
          · exact Or.inr (of_decide_eq_false hf)
        · obtain ⟨hm', hk⟩ := ih.mp hm
          exact ⟨List.mem_cons_of_mem x hm', hk⟩
      · rintro ⟨hm, hk⟩
        rcases List.mem_cons.mp hm with rfl | hm
        · exact List.mem_cons_self e _
        · exact List.mem_cons_of_mem x (ih.mpr ⟨hm, hk⟩)

/-- C8 counterexample: with output extension `.out`, the supervisor's
startup sweep of a task directory deletes the error marker `z.err` — so the
sweep does not delete "only extension-less temporary files" and `.err`
markers do not survive it. -/
theorem tf_C8_counterexample :
    outputDirSweep ".out" [⟨"z.err", true⟩] = []
    ∧ _remove_temporary_files [⟨"z.err", true⟩] = [⟨"z.err", true⟩] := by
  constructor <;> decide

/-- C8 (amended): error markers `<stem>.err` survive the task runtime's
startup cleanup (`_remove_temporary_files` deletes only files with an empty
`Path.suffix`), but they do not survive the supervisor's workspace sweep:
that sweep deletes every regular file whose name does not end in the task's
validated `output_ext`, which includes every name ending in `.err`. -/
theorem tf_C8_amended :
    (∀ (ext : String) (entries : List DirEntry) (e : DirEntry),
      validate_file_ext ext = true → e ∈ entries → e.isFile = true →
      sEndsWith e.name ".err" = true → e ∉ outputDirSweep ext entries)
    ∧ (∀ (entries : List DirEntry) (e : DirEntry) (stem : String),
      stem ≠ "" → e.name = stem ++ ".err" → e ∈ entries →
      e ∈ _remove_temporary_files entries) := by
  constructor
  · intro ext entries e hv _ hf herr hmem
    obtain ⟨-, hk⟩ := (mem_outputDirSweep ext entries e).mp hmem
    rcases hk with hk | hk
    · rw [hf] at hk
      exact absurd hk (by simp)
    · rw [not_endsWith_ext_of_endsWith_err e.name ext hv herr] at hk
      exact absurd hk (by simp)
  · intro entries e stem hs hname hmem
    refine (mem_remove_temporary_files entries e).mpr ⟨hmem, Or.inr ?_⟩
    rw [hname, pathSuffix_stem_err stem hs]
    intro hcontra
    exact absurd (congrArg String.data hcontra) (by decide)

/-- Witness for C8 (amended): the concrete marker `a.err` is deleted by the
supervisor sweep (for output extension `.out`) but survives the runtime's
temporary-file cleanup. -/
theorem tf_C8_amended_witness :
    (⟨"a.err", true⟩ : DirEntry) ∉ outputDirSweep ".out" [⟨"a.err", true⟩]
    ∧ (⟨"a.err", true⟩ : DirEntry) ∈ _remove_temporary_files [⟨"a.err", true⟩] :=
  ⟨tf_C8_amended.1 ".out" [⟨"a.err", true⟩] ⟨"a.err", true⟩ (by decide)
      (by decide) rfl (by decide),
    tf_C8_amended.2 [⟨"a.err", true⟩] ⟨"a.err", true⟩ "a" (by decide) rfl (by decide)⟩

/-! ### The task runtime dispatch loop (claims C5)

`LocalTask.start.task` (tasks/local.py lines 35-44) and
`LocalAsyncTask.start.task` (tasks/local_async.py lines 48-61): each
unprocessed input file `<stem><input_ext>` is processed by the user's `run`
inside `atomic_write(output_file)`; on success the output directory gains
`<stem><output_ext>` with the produced content, on exception the temporary
vanishes (claim C1) and the captured report is written — again through
`atomic_write` — to `<stem>.err`.  The loop then continues with the next
file.  A job is a stem paired with the outcome of the user callback. -/

/-- Outcome of the user `run` callback for one input file. -/
inductive RunOut where
  | ok (content : String)
  | err (message : String)
  deriving DecidableEq, Repr

/-- Net effect of the `task(input_file, output_file)` body on the output
directory (the atomic-write plumbing is verified separately as claim C1). -/
def taskWrite (output_ext : String) (d : FS) (stem : String) : RunOut → FS
  | .ok c => fsSet d (stem ++ output_ext) c
  | .err m => fsSet d (stem ++ ".err") m

/-- The `for file in unprocessed_files` dispatch loop. -/
def taskLoop (output_ext : String) (d : FS) : List (String × RunOut) → FS
  | [] => d
  | (stem, r) :: jobs => taskLoop output_ext (taskWrite output_ext d stem r) jobs

/-- The file name a job writes. -/
def wname (output_ext : String) (j : String × RunOut) : String :=
  match j.2 with
  | .ok _ => j.1 ++ output_ext
  | .err _ => j.1 ++ ".err"

/-- The content a job writes. -/
def wcontent (j : String × RunOut) : String :=
  match j.2 with
  | .ok c => c
  | .err m => m

theorem taskWrite_eq_fsSet (output_ext : String) (d : FS) (j : String × RunOut) :
    taskWrite output_ext d j.1 j.2 = fsSet d (wname output_ext j) (wcontent j) := by
  obtain ⟨stem, r⟩ := j
  cases r <;> rfl

theorem taskLoop_append (output_ext : String) (d : FS)
    (l1 l2 : List (String × RunOut)) :
    taskLoop output_ext d (l1 ++ l2) = taskLoop output_ext (taskLoop output_ext d l1) l2 := by
  induction l1 generalizing d with
  | nil => rfl
  | cons j rest ih =>
    obtain ⟨stem, r⟩ := j
    rw [List.cons_append, taskLoop, taskLoop, ih]

theorem taskLoop_get_not_written (output_ext : String) (d : FS)
    (jobs : List (String × RunOut)) (k : String)
    (h : ∀ j ∈ jobs, wname output_ext j ≠ k) :
    fsGet (taskLoop output_ext d jobs) k = fsGet d k := by
  induction jobs generalizing d with
  | nil => rfl
  | cons j rest ih =>
    obtain ⟨stem, r⟩ := j
    rw [taskLoop, ih _ (fun j' hj' => h j' (List.mem_cons_of_mem _ hj')),
      taskWrite_eq_fsSet output_ext d (stem, r)]
    exact fsGet_fsSet_ne d (wname output_ext (stem, r)) (wcontent (stem, r)) k
      (fun he => h (stem, r) (List.mem_cons_self _ _) he.symm)

theorem taskLoop_get_written (output_ext : String) (d : FS)
    (pre post : List (String × RunOut)) (j : String × RunOut)
    (h : ∀ j' ∈ post, wname output_ext j' ≠ wname output_ext j) :
    fsGet (taskLoop output_ext d (pre ++ j :: post)) (wname output_ext j)
      = some (wcontent j) := by
  obtain ⟨stem, r⟩ := j
  rw [taskLoop_append, taskLoop,
    taskLoop_get_not_written output_ext _ post _ h,
    taskWrite_eq_fsSet output_ext _ (stem, r), fsGet_fsSet_self]

theorem strAppend_right_cancel {a b c : String} (h : a ++ c = b ++ c) : a = b := by
  have hd := congrArg String.data h
  rw [String.data_append, String.data_append] at hd
  exact String.ext (List.append_inj' hd rfl).1

theorem strAppend_left_cancel {a b c : String} (h : c ++ a = c ++ b) : a = b := by
  have hd := congrArg String.data h
  rw [String.data_append, String.data_append] at hd
  exact String.ext (List.append_inj_right hd rfl)

/-- With a validated output extension, an error-marker name is never an
output name. -/
theorem errName_ne_outName (output_ext : String)
    (hv : validate_file_ext output_ext = true) (s s' : String) :
    s' ++ ".err" ≠ s ++ output_ext := by
  intro he
  have h1 : sEndsWith (s ++ output_ext) ".err" = true := by
    rw [← he]
    exact sEndsWith_append s' ".err"
  have h2 := not_endsWith_ext_of_endsWith_err (s ++ output_ext) output_ext hv h1
  rw [sEndsWith_append s output_ext] at h2
  exact absurd h2 (by simp)

theorem nodup_fst_unique {α β : Type} (jobs : List (α × β))
    (h : (jobs.map Prod.fst).Nodup) {s : α} {a b : β}
    (ha : (s, a) ∈ jobs) (hb : (s, b) ∈ jobs) : a = b := by
  induction jobs with
  | nil => exact absurd ha (List.not_mem_nil _)
  | cons x rest ih =>
    rw [List.map_cons, List.nodup_cons] at h
    obtain ⟨hx, hrest⟩ := h
    rcases List.mem_cons.mp ha with hax | ha'
    · rcases List.mem_cons.mp hb with hbx | hb'
      · rw [← hax] at hbx
        exact congrArg Prod.snd hbx.symm
      · rw [← hax] at hx
        exact absurd (List.mem_map_of_mem Prod.fst hb') (by simpa using hx)
    · rcases List.mem_cons.mp hb with hbx | hb'
      · rw [← hbx] at hx
        exact absurd (List.mem_map_of_mem Prod.fst ha') (by simpa using hx)
      · exact ih hrest ha' hb'

/-- C5: when the user `run` raises on `<stem><input_ext>`, the runtime writes
the captured report to `<stem>.err`, creates no `<stem><output_ext>` for that
stem, and processes all other files normally (every successful job's output
is produced). -/
theorem tf_C5 (output_ext : String) (d : FS) (jobs : List (String × RunOut))
    (s m : String)
    (hv : validate_file_ext output_ext = true)
    (hnd : (jobs.map Prod.fst).Nodup)
    (hmem : (s, RunOut.err m) ∈ jobs)
    (hout : fsGet d (s ++ output_ext) = none) :
    fsGet (taskLoop output_ext d jobs) (s ++ ".err") = some m
    ∧ fsGet (taskLoop output_ext d jobs) (s ++ output_ext) = none
    ∧ (∀ s₂ c, (s₂, RunOut.ok c) ∈ jobs →
        fsGet (taskLoop output_ext d jobs) (s₂ ++ output_ext) = some c) := by
  refine ⟨?_, ?_, ?_⟩
  · -- the error report is present
    obtain ⟨pre, post, hsplit⟩ := List.append_of_mem hmem
    have hnodup' := hnd
    rw [hsplit, List.map_append, List.map_cons] at hnodup'
    have hnotin : s ∉ post.map Prod.fst := by
      have := (List.nodup_cons.mp hnodup'.of_append_right).1
      simpa using this
    have hpost : ∀ j' ∈ post, wname output_ext j'
        ≠ wname output_ext (s, RunOut.err m) := by
      intro j' hj' he
      obtain ⟨s', r'⟩ := j'
      cases r' with
      | ok c =>
        exact errName_ne_outName output_ext hv s' s
          (by rw [wname, wname] at he; exact he.symm)
      | err m' =>
        rw [wname, wname] at he
        obtain rfl : s' = s := strAppend_right_cancel he
        exact hnotin (List.mem_map_of_mem Prod.fst hj')
    have := taskLoop_get_written output_ext d pre post (s, RunOut.err m) hpost
    rw [← hsplit] at this
    exact this
  · -- no output file is created for the failing stem
    rw [taskLoop_get_not_written output_ext d jobs (s ++ output_ext) ?_, hout]
    intro j hj he
    obtain ⟨s', r'⟩ := j
    cases r' with
    | ok c =>
      rw [wname] at he
      obtain rfl : s' = s := strAppend_right_cancel he
      exact absurd (nodup_fst_unique jobs hnd hj hmem) (by simp)
    | err m' =>
      rw [wname] at he
      exact errName_ne_outName output_ext hv s s' he
  · -- every successful job still gets its output: the loop continues
    intro s₂ c hmem₂
    obtain ⟨pre, post, hsplit⟩ := List.append_of_mem hmem₂
    have hnodup' := hnd
    rw [hsplit, List.map_append, List.map_cons] at hnodup'
    have hnotin : s₂ ∉ post.map Prod.fst := by
      have := (List.nodup_cons.mp hnodup'.of_append_right).1
      simpa using this
    have hpost : ∀ j' ∈ post, wname output_ext j'
        ≠ wname output_ext (s₂, RunOut.ok c) := by
      intro j' hj' he
      obtain ⟨s', r'⟩ := j'
      cases r' with
      | ok c' =>
        rw [wname, wname] at he
        obtain rfl : s' = s₂ := strAppend_right_cancel he
        exact hnotin (List.mem_map_of_mem Prod.fst hj')
      | err m' =>
        rw [wname, wname] at he
        exact errName_ne_outName output_ext hv s₂ s' he
    have := taskLoop_get_written output_ext d pre post (s₂, RunOut.ok c) hpost
    rw [← hsplit] at this
    exact this

/-- Witness for C5 on a concrete batch: job `b` raises while `a` and `c`
succeed; the error report exists, `b.out` does not, and both successful
outputs are present. -/
theorem tf_C5_witness :
    fsGet (taskLoop ".out" []
        [("a", RunOut.ok "A"), ("b", RunOut.err "boom"), ("c", RunOut.ok "C")])
      "b.err" = some "boom"
    ∧ fsGet (taskLoop ".out" []
        [("a", RunOut.ok "A"), ("b", RunOut.err "boom"), ("c", RunOut.ok "C")])
      "b.out" = none
    ∧ fsGet (taskLoop ".out" []
        [("a", RunOut.ok "A"), ("b", RunOut.err "boom"), ("c", RunOut.ok "C")])
      "c.out" = some "C" := by
  have h := tf_C5 ".out" []
    [("a", RunOut.ok "A"), ("b", RunOut.err "boom"), ("c", RunOut.ok "C")]
    "b" "boom" (by decide) (by decide) (by decide) rfl
  exact ⟨h.1, h.2.1, h.2.2 "c" "C" (by decide)⟩

/-! ### `Pipeline.report_progress` (pipeline.py lines 269-298)

For each task directory the code builds `TaskProgress(name=folder.name)` —
whose pydantic fields `processed`, `ongoing`, `failed` are declared
`set[Path]` and default to `set()` — and then classifies every regular file
with `task.ongoing.append(file)` / `task.failed.append(file)` /
`task.processed.append(file)`.  Python's `set` has no `append` method, so
the first regular file raises `AttributeError`.  The dynamic collection
value and its `append` call are modelled faithfully. -/

/-- A Python collection value as used by `report_progress`: the pydantic
model declares a `set`, the loop uses it as a `list`. -/
inductive PyColl where
  | pySet (xs : List String)
  | pyList (xs : List String)
  deriving DecidableEq, Repr

/-- The `.append(x)` call: lists append, sets raise `AttributeError`. -/
def pyAppend : PyColl → String → Except PyErr PyColl
  | .pyList xs, x => .ok (.pyList (xs ++ [x]))
  | .pySet _, _ => .error .attributeError

/-- The three per-task counters of `models.TaskProgress`. -/
structure TaskProgress where
  ongoing : PyColl
  failed : PyColl
  processed : PyColl
  deriving DecidableEq, Repr

/-- `TaskProgress(name=folder.name)`: pydantic fills the declared
`set[Path]` defaults. -/
def TaskProgress.init : TaskProgress :=
  ⟨.pySet [], .pySet [], .pySet []⟩

/-- Classification of one directory entry (the `if file.is_file()` body). -/
def classifyEntry (tp : TaskProgress) (e : DirEntry) : Except PyErr TaskProgress :=
  if e.isFile then
    if pathSuffix e.name = "" then
      (pyAppend tp.ongoing e.name).map (fun c => { tp with ongoing := c })
    else if sEndsWith e.name ".err" then
      (pyAppend tp.failed e.name).map (fun c => { tp with failed := c })
    else
      (pyAppend tp.processed e.name).map (fun c => { tp with processed := c })
  else .ok tp

/-- The per-task-folder loop of `Pipeline.report_progress`. -/
def report_progress_task (entries : List DirEntry) : Except PyErr TaskProgress :=
  entries.foldlM classifyEntry TaskProgress.init

/-- C10 (code bug): `report_progress` cannot classify anything — for a task
directory containing a single regular file of any of the three shapes
(extension-less, `.err`, or other extension), the loop raises
`AttributeError` because `TaskProgress.ongoing/failed/processed` are
pydantic `set[Path]` fields and the code calls `.append` on them.  (A
directory with no regular file returns the empty counters.) -/
theorem tf_C10 :
    report_progress_task [⟨"a", true⟩] = .error .attributeError
    ∧ report_progress_task [⟨"x.out", true⟩] = .error .attributeError
    ∧ report_progress_task [⟨"z.err", true⟩] = .error .attributeError
    ∧ report_progress_task [⟨"logs", false⟩] = .ok TaskProgress.init := by
  refine ⟨rfl, rfl, rfl, rfl⟩

/-! ### `PipelineConfig.validate_task_dependency_graph`
(src/tigerflow/models.py lines 273-327)

A task is modelled by the fields the validator reads.  The validator runs,
in order: the emptiness check, the duplicate-name check, the
dependency-resolution and extension-compatibility loop, the
`networkx.is_branching` check on the graph with an edge
`depends_on → name` per dependent task, and the root-input-extension check.
On success the code also reorders `tasks` topologically; the claim concerns
acceptance, so the returned order is not modelled. -/

/-- The validator-relevant fields of a task configuration. -/
structure TaskC where
  name : String
  depends_on : Option String
  input_ext : String
  output_ext : String
  deriving DecidableEq, Repr

/-- The Python code branches on `if not task.depends_on`, so an empty string
counts as "no parent" exactly like `None`. -/
def pyDep (t : TaskC) : Option String :=
  match t.depends_on with
  | none => none
  | some s => if s = "" then none else some s

/-- The duplicate-name loop with its `seen_names` accumulator. -/
def uniqueNamesGo (seen : List String) : List TaskC → Except String Unit
  | [] => .ok ()
  | t :: ts =>
    if t.name ∈ seen then .error ("Duplicate task name: " ++ t.name)
    else uniqueNamesGo (t.name :: seen) ts

/-- The duplicate-name check. -/
def uniqueNamesCheck (tasks : List TaskC) : Except String Unit :=
  uniqueNamesGo [] tasks

/-- `task_dict.get(name)` (the dict is keyed by name; with unique names this
is the first task of that name). -/
def findTask (tasks : List TaskC) (n : String) : Option TaskC :=
  tasks.find? (fun t => t.name = n)

/-- The dependency-resolution and extension-compatibility loop. -/
def resolveExtGo (tasks : List TaskC) : List TaskC → Except String Unit
  | [] => .ok ()
  | t :: ts =>
    match pyDep t with
    | none => resolveExtGo tasks ts
    | some p =>
      match findTask tasks p with
      | none => .error ("Task " ++ t.name ++ " depends on unknown task " ++ p)
      | some parent =>
        if parent.output_ext ≠ t.input_ext then
          .error ("Extension mismatch: task " ++ parent.name ++ " outputs "
            ++ parent.output_ext ++ " but its dependent task " ++ t.name
            ++ " expects " ++ t.input_ext)
        else resolveExtGo tasks ts

/-- The parent map induced by the graph edges `depends_on → name`. -/
def parentOf (tasks : List TaskC) (n : String) : Option String :=
  (findTask tasks n).bind pyDep

/-- Does the parent chain from `n` reach a root within `fuel` steps? -/
def reachesRoot (tasks : List TaskC) : Nat → String → Bool
  | 0, _ => false
  | fuel + 1, n =>
    match parentOf tasks n with
    | none => true
    | some p => reachesRoot tasks fuel p

/-- `networkx.is_branching(G)` for this graph.  Every node has at most one
in-edge (its unique `depends_on`), so `is_branching` — the underlying graph
is a forest and the maximum in-degree is at most 1 — holds iff no directed
cycle exists, i.e. iff every parent chain terminates; with `n` tasks a chain
of `n + 1` steps must revisit a node, so fuel `n + 1` decides it. -/
def branchingCheck (tasks : List TaskC) : Except String Unit :=
  if tasks.all (fun t => reachesRoot tasks (tasks.length + 1) t.name) then .ok ()
  else .error "Task dependency graph contains a cycle"

/-- `len({task.input_ext for root tasks}) > 1` check. -/
def rootExtCheck (tasks : List TaskC) : Except String Unit :=
  if (((tasks.filter (fun t => (pyDep t).isNone)).map
      (fun t => t.input_ext)).dedup).length > 1 then
    .error "Root tasks must have the same input extension"
  else .ok ()

/-- `PipelineConfig.validate_task_dependency_graph` (acceptance behaviour;
a raised `ValueError` is the `.error` case). -/
def validate_task_dependency_graph (tasks : List TaskC) :
    Except String (List TaskC) :=
  if tasks.isEmpty then .error "Pipeline must have at least one task"
  else
    match uniqueNamesCheck tasks with
    | .error e => .error e
    | .ok _ =>
      match resolveExtGo tasks tasks with
      | .error e => .error e
      | .ok _ =>
        match branchingCheck tasks with
        | .error e => .error e
        | .ok _ =>
          match rootExtCheck tasks with
          | .error e => .error e
          | .ok _ => .ok tasks

/-! Graph-theoretic properties, stated from the claim's words. -/

/-- Iterated parent map. -/
def iterParent (tasks : List TaskC) : Nat → String → Option String
  | 0, n => some n
  | k + 1, n => (parentOf tasks n).bind (iterParent tasks k)

/-- Task names are unique. -/
def specNamesUnique (tasks : List TaskC) : Prop :=
  (tasks.map TaskC.name).Nodup

/-- Every `depends_on` reference resolves to a task in the set. -/
def specRefsResolve (tasks : List TaskC) : Prop :=
  ∀ t ∈ tasks, ∀ p, pyDep t = some p → ∃ parent ∈ tasks, parent.name = p

/-- `parent.output_ext == child.input_ext` on every edge. -/
def specExtMatch (tasks : List TaskC) : Prop :=
  ∀ t ∈ tasks, ∀ parent ∈ tasks, pyDep t = some parent.name →
    parent.output_ext = t.input_ext

/-- No dependency cycle (each node already has at most one parent by
construction). -/
def specAcyclic (tasks : List TaskC) : Prop :=
  ∀ t ∈ tasks, ∀ k, 0 < k → iterParent tasks k t.name ≠ some t.name

/-- At least one root exists. -/
def specHasRoot (tasks : List TaskC) : Prop :=
  ∃ t ∈ tasks, pyDep t = none

/-- All root tasks share one input extension. -/
def specRootsShareExt (tasks : List TaskC) : Prop :=
  ∀ t1 ∈ tasks, ∀ t2 ∈ tasks, pyDep t1 = none → pyDep t2 = none →
    t1.input_ext = t2.input_ext

/-- The root reached from a node by following parents (with enough fuel). -/
def rootOf (tasks : List TaskC) : Nat → String → Option String
  | 0, _ => none
  | fuel + 1, n =>
    match parentOf tasks n with
    | none => some n
    | some p => rootOf tasks fuel p

/-- In a forest of in-trees, the graph is one weakly connected component iff
all nodes reach the same root. -/
def specSingleComponent (tasks : List TaskC) : Prop :=
  ∀ t1 ∈ tasks, ∀ t2 ∈ tasks,
    rootOf tasks (tasks.length + 1) t1.name
      = rootOf tasks (tasks.length + 1) t2.name

/-- C2 counterexample: two parentless tasks with the same input extension
form two weakly connected components, yet the validator accepts them
(`nx.is_branching` allows any forest and the code explicitly tolerates
several roots via the shared-input-extension check), contradicting the
claim that every accepted configuration is a single connected component —
and hence also the claim that every configuration violating one of the four
invariants is rejected. -/
theorem tf_C2_counterexample :
    (validate_task_dependency_graph
        [⟨"a", none, ".txt", ".out"⟩, ⟨"b", none, ".txt", ".out"⟩]).isOk = true
    ∧ ¬ specSingleComponent
        [⟨"a", none, ".txt", ".out"⟩, ⟨"b", none, ".txt", ".out"⟩] := by
  constructor
  · rfl
  · intro h
    have := h ⟨"a", none, ".txt", ".out"⟩ (by decide) ⟨"b", none, ".txt", ".out"⟩
      (by decide)
    exact absurd this (by decide)

theorem nodup_map_mem_eq {α β : Type} {f : α → β} {l : List α}
    (h : (l.map f).Nodup) {a b : α} (ha : a ∈ l) (hb : b ∈ l)
    (hf : f a = f b) : a = b := by
  induction l with
  | nil => exact absurd ha (List.not_mem_nil _)
  | cons x rest ih =>
    rw [List.map_cons, List.nodup_cons] at h
    obtain ⟨hx, hrest⟩ := h
    rcases List.mem_cons.mp ha with rfl | ha'
    · rcases List.mem_cons.mp hb with rfl | hb'
      · rfl
      · exact absurd (hf ▸ List.mem_map_of_mem f hb') hx
    · rcases List.mem_cons.mp hb with rfl | hb'
      · exact absurd (hf ▸ List.mem_map_of_mem f ha') hx
      · exact ih hrest ha' hb'

theorem uniqueNamesGo_ok_iff (seen : List String) (ts : List TaskC) :
    uniqueNamesGo seen ts = .ok ()
      ↔ (ts.map TaskC.name).Nodup ∧ ∀ t ∈ ts, t.name ∉ seen := by
  induction ts generalizing seen with
  | nil => simp [uniqueNamesGo]
  | cons t ts ih =>
    rw [uniqueNamesGo]
    by_cases hmem : t.name ∈ seen
    · rw [if_pos hmem]
      constructor
      · intro h
        exact absurd h (by simp)
      · rintro ⟨-, hall⟩
        exact absurd hmem (hall t (List.mem_cons_self t ts))
    · rw [if_neg hmem, ih]
      constructor
      · rintro ⟨hnd, hall⟩
        refine ⟨List.nodup_cons.mpr ⟨?_, hnd⟩, ?_⟩
        · intro hin
          obtain ⟨t', ht', hname⟩ := List.mem_map.mp hin
          exact hall t' ht' (by rw [hname]; exact List.mem_cons_self _ _)
        · intro t' ht'
          rcases List.mem_cons.mp ht' with rfl | ht''
          · exact hmem
          · exact fun hs => hall t' ht'' (List.mem_cons_of_mem _ hs)
      · rintro ⟨hnd, hall⟩
        obtain ⟨hni, hnd'⟩ := List.nodup_cons.mp hnd
        refine ⟨hnd', ?_⟩
        intro t' ht' hin
        rcases List.mem_cons.mp hin with he | hs
        · exact hni (he ▸ List.mem_map_of_mem TaskC.name ht')
        · exact hall t' (List.mem_cons_of_mem t ht') hs

theorem findTask_mem {tasks : List TaskC} {p : String} {parent : TaskC}
    (h : findTask tasks p = some parent) : parent ∈ tasks ∧ parent.name = p := by
  refine ⟨List.mem_of_find?_eq_some h, ?_⟩
  have := List.find?_some h
  simpa using this

theorem findTask_isSome {tasks : List TaskC} {p : String}
    (h : ∃ t ∈ tasks, t.name = p) : ∃ u, findTask tasks p = some u := by
  obtain ⟨t, ht, hn⟩ := h
  rw [← Option.isSome_iff_exists]
  rw [findTask, List.find?_isSome]
  exact ⟨t, ht, by simpa using hn⟩

theorem resolveExtGo_ok_iff (tasks ts : List TaskC) :
    resolveExtGo tasks ts = .ok ()
      ↔ ∀ t ∈ ts, ∀ p, pyDep t = some p →
          ∃ parent, findTask tasks p = some parent
            ∧ parent.output_ext = t.input_ext := by
  induction ts with
  | nil => simp [resolveExtGo]
  | cons t ts ih =>
    cases hd : pyDep t with
    | none =>
      simp only [resolveExtGo, hd]
      rw [ih]
      constructor
      · intro hall t' ht' p hp
        rcases List.mem_cons.mp ht' with rfl | hmem
        · rw [hd] at hp
          exact absurd hp (by simp)
        · exact hall t' hmem p hp
      · intro hall t' ht' p hp
        exact hall t' (List.mem_cons_of_mem t ht') p hp
    | some p =>
      cases hf : findTask tasks p with
      | none =>
        simp only [resolveExtGo, hd, hf]
        constructor
        · intro h
          exact absurd h (by simp)
        · intro hall
          obtain ⟨parent, hpar, -⟩ := hall t (List.mem_cons_self t ts) p hd
          rw [hf] at hpar
          exact absurd hpar (by simp)
      | some parent =>
        by_cases hext : parent.output_ext ≠ t.input_ext
        · simp only [resolveExtGo, hd, hf, if_pos hext]
          constructor
          · intro h
            exact absurd h (by simp)
          · intro hall
            obtain ⟨parent', hpar', hext'⟩ := hall t (List.mem_cons_self t ts) p hd
            rw [hf] at hpar'
            injection hpar' with hh
            exact (hext (hh ▸ hext')).elim
        · simp only [resolveExtGo, hd, hf, if_neg hext]
          rw [ih]
          rw [not_not] at hext
          constructor
          · intro hall t' ht' p' hp'
            rcases List.mem_cons.mp ht' with rfl | hmem
            · rw [hd] at hp'
              injection hp' with hpp
              subst hpp
              exact ⟨parent, hf, hext⟩
            · exact hall t' hmem p' hp'
          · intro hall t' ht' p' hp'
            exact hall t' (List.mem_cons_of_mem t ht') p' hp'

theorem dedup_len_le_one_iff (l : List String) :
    l.dedup.length ≤ 1 ↔ ∀ a ∈ l, ∀ b ∈ l, a = b := by
  constructor
  · intro h a ha b hb
    have ha' : a ∈ l.dedup := List.mem_dedup.mpr ha
    have hb' : b ∈ l.dedup := List.mem_dedup.mpr hb
    rcases hd : l.dedup with _ | ⟨x, _ | ⟨y, ys⟩⟩
    · rw [hd] at ha'
      exact absurd ha' (List.not_mem_nil a)
    · rw [hd] at ha' hb'
      rw [List.mem_singleton.mp ha', List.mem_singleton.mp hb']
    · rw [hd] at h
      exact absurd h (by simp)
  · intro h
    rcases hd : l.dedup with _ | ⟨x, _ | ⟨y, ys⟩⟩
    · simp
    · simp
    · exfalso
      have hx : x ∈ l := List.mem_dedup.mp (hd ▸ List.mem_cons_self x (y :: ys))
      have hy : y ∈ l := List.mem_dedup.mp
        (hd ▸ List.mem_cons_of_mem x (List.mem_cons_self y ys))
      have hnd := l.nodup_dedup
      rw [hd] at hnd
      exact (List.nodup_cons.mp hnd).1 ((h x hx y hy) ▸ List.mem_cons_self y ys)

theorem rootExtCheck_ok_iff (tasks : List TaskC) :
    rootExtCheck tasks = .ok () ↔ specRootsShareExt tasks := by
  have hpairs : (∀ a ∈ (tasks.filter (fun t => (pyDep t).isNone)).map
        (fun t => t.input_ext), ∀ b ∈ (tasks.filter
        (fun t => (pyDep t).isNone)).map (fun t => t.input_ext), a = b)
      ↔ specRootsShareExt tasks := by
    constructor
    · intro h t1 ht1 t2 ht2 hd1 hd2
      refine h t1.input_ext ?_ t2.input_ext ?_
      · exact List.mem_map_of_mem _ (List.mem_filter.mpr
          ⟨ht1, by rw [hd1]; rfl⟩)
      · exact List.mem_map_of_mem _ (List.mem_filter.mpr
          ⟨ht2, by rw [hd2]; rfl⟩)
    · intro h a ha b hb
      obtain ⟨t1, ht1, rfl⟩ := List.mem_map.mp ha
      obtain ⟨t2, ht2, rfl⟩ := List.mem_map.mp hb
      obtain ⟨ht1m, ht1r⟩ := List.mem_filter.mp ht1
      obtain ⟨ht2m, ht2r⟩ := List.mem_filter.mp ht2
      exact h t1 ht1m t2 ht2m (Option.isNone_iff_eq_none.mp ht1r)
        (Option.isNone_iff_eq_none.mp ht2r)
  rw [rootExtCheck]
  by_cases h : (((tasks.filter (fun t => (pyDep t).isNone)).map
      (fun t => t.input_ext)).dedup).length > 1
  · rw [if_pos h]
    constructor
    · intro hcontra
      exact absurd hcontra (by simp)
    · intro hspec
      exact absurd (Nat.not_lt.mpr ((dedup_len_le_one_iff _).mpr
        (hpairs.mpr hspec))) (fun hc => hc h)
  · rw [if_neg h]
    exact ⟨fun _ => hpairs.mp ((dedup_len_le_one_iff _).mp (Nat.not_lt.mp h)),
      fun _ => rfl⟩

theorem iterParent_add (tasks : List TaskC) (a b : Nat) (n : String) :
    iterParent tasks (a + b) n
      = (iterParent tasks a n).bind (iterParent tasks b) := by
  induction a generalizing n with
  | zero => simp [iterParent]
  | succ a ih =>
    rw [Nat.succ_add, iterParent, iterParent]
    cases hp : parentOf tasks n with
    | none => simp
    | some p => simp [ih p]

/-- A node lying on a dependency cycle. -/
def cyclicName (tasks : List TaskC) (n : String) : Prop :=
  ∃ k, 0 < k ∧ iterParent tasks k n = some n

theorem cyclicName_step (tasks : List TaskC) {n : String}
    (h : cyclicName tasks n) :
    ∃ p, parentOf tasks n = some p ∧ cyclicName tasks p := by
  obtain ⟨k, hk, hc⟩ := h
  obtain ⟨k', rfl⟩ : ∃ k', k = k' + 1 := ⟨k - 1, by omega⟩
  rw [iterParent] at hc
  cases hp : parentOf tasks n with
  | none =>
    rw [hp] at hc
    exact absurd hc (by simp)
  | some p =>
    rw [hp, Option.some_bind] at hc
    refine ⟨p, rfl, k' + 1, Nat.succ_pos k', ?_⟩
    rw [iterParent_add tasks k' 1 p, hc, Option.some_bind]
    simp [iterParent, hp]

theorem reachesRoot_false_of_cyclic (tasks : List TaskC) :
    ∀ (fuel : Nat) (n : String), cyclicName tasks n →
      reachesRoot tasks fuel n = false := by
  intro fuel
  induction fuel with
  | zero => intro n _; rfl
  | succ fuel ih =>
    intro n hc
    obtain ⟨p, hp, hcp⟩ := cyclicName_step tasks hc
    simp only [reachesRoot, hp]
    exact ih p hcp

theorem specAcyclic_of_branchingCheck (tasks : List TaskC)
    (h : branchingCheck tasks = .ok ()) : specAcyclic tasks := by
  intro t ht k hk hcyc
  rw [branchingCheck] at h
  by_cases hall : tasks.all
      (fun t => reachesRoot tasks (tasks.length + 1) t.name) = true
  · have htrue := List.all_eq_true.mp hall t ht
    rw [reachesRoot_false_of_cyclic tasks _ t.name ⟨k, hk, hcyc⟩] at htrue
    exact absurd htrue (by simp)
  · rw [if_neg hall] at h
    exact absurd h (by simp)

theorem chain_of_reachesRoot_false (tasks : List TaskC) :
    ∀ (fuel : Nat) (x : String), reachesRoot tasks fuel x = false →
      ∀ i ≤ fuel, ∃ y, iterParent tasks i x = some y := by
  intro fuel
  induction fuel with
  | zero =>
    intro x _ i hi
    obtain rfl : i = 0 := Nat.le_zero.mp hi
    exact ⟨x, rfl⟩
  | succ fuel ih =>
    intro x hx i hi
    cases hp : parentOf tasks x with
    | none =>
      simp only [reachesRoot, hp] at hx
      exact absurd hx (by simp)
    | some p =>
      simp only [reachesRoot, hp] at hx
      cases i with
      | zero => exact ⟨x, rfl⟩
      | succ j =>
        obtain ⟨y, hy⟩ := ih p hx j (Nat.le_of_succ_le_succ hi)
        refine ⟨y, ?_⟩
        rw [iterParent, hp, Option.some_bind, hy]

theorem parent_mem_of_resolve (tasks : List TaskC)
    (hres : specRefsResolve tasks) {n p : String}
    (hp : parentOf tasks n = some p) : ∃ t ∈ tasks, t.name = p := by
  rw [parentOf] at hp
  cases hf : findTask tasks n with
  | none =>
    rw [hf] at hp
    exact absurd hp (by simp)
  | some u =>
    rw [hf, Option.some_bind] at hp
    exact hres u (findTask_mem hf).1 p hp

theorem iter_name_mem (tasks : List TaskC) (hres : specRefsResolve tasks) :
    ∀ (i : Nat) (x y : String), iterParent tasks i x = some y →
      x = y ∨ ∃ t ∈ tasks, t.name = y := by
  intro i
  induction i with
  | zero =>
    intro x y h
    injection h with h
    exact Or.inl h
  | succ j ih =>
    intro x y h
    rw [iterParent] at h
    cases hp : parentOf tasks x with
    | none =>
      rw [hp] at h
      exact absurd h (by simp)
    | some p =>
      rw [hp, Option.some_bind] at h
      rcases ih p y h with rfl | hmem
      · exact Or.inr (parent_mem_of_resolve tasks hres hp)
      · exact Or.inr hmem

theorem cyclic_of_iter_eq (tasks : List TaskC) {x z : String} {i j : Nat}
    (hij : i < j) (hi : iterParent tasks i x = some z)
    (hj : iterParent tasks j x = some z) : cyclicName tasks z := by
  have hsplit : i + (j - i) = j := by omega
  rw [← hsplit, iterParent_add, hi, Option.some_bind] at hj
  exact ⟨j - i, by omega, hj⟩

theorem branchingCheck_ok_of_acyclic (tasks : List TaskC)
    (hres : specRefsResolve tasks) (hacy : specAcyclic tasks) :
    branchingCheck tasks = .ok () := by
  rw [branchingCheck, if_pos]
  rw [List.all_eq_true]
  intro t ht
  by_contra hfalse
  have hf : reachesRoot tasks (tasks.length + 1) t.name = false := by
    revert hfalse
    cases reachesRoot tasks (tasks.length + 1) t.name <;> simp
  have hchain := chain_of_reachesRoot_false tasks (tasks.length + 1) t.name hf
  have hfmem : ∀ i : Fin (tasks.length + 2),
      (iterParent tasks i.val t.name).getD "" ∈ (tasks.map TaskC.name).toFinset := by
    intro i
    obtain ⟨y, hy⟩ := hchain i.val (by omega)
    rw [hy, Option.getD_some, List.mem_toFinset]
    rcases iter_name_mem tasks hres i.val t.name y hy with rfl | ⟨u, hu, rfl⟩
    · exact List.mem_map_of_mem TaskC.name ht
    · exact List.mem_map_of_mem TaskC.name hu
  have hcard : (tasks.map TaskC.name).toFinset.card
      < (Finset.univ : Finset (Fin (tasks.length + 2))).card := by
    have h1 : (tasks.map TaskC.name).toFinset.card ≤ tasks.length :=
      le_trans (List.toFinset_card_le _) (by simp)
    rw [Finset.card_univ, Fintype.card_fin]
    omega
  obtain ⟨i, -, j, -, hij, hfeq⟩ :=
    Finset.exists_ne_map_eq_of_card_lt_of_maps_to hcard (fun a _ => hfmem a)
  obtain ⟨z1, hz1⟩ := hchain i.val (by omega)
  obtain ⟨z2, hz2⟩ := hchain j.val (by omega)
  rw [hz1, hz2, Option.getD_some, Option.getD_some] at hfeq
  subst hfeq
  have hzyc : cyclicName tasks z1 := by
    rcases Nat.lt_or_ge i.val j.val with hlt | hge
    · exact cyclic_of_iter_eq tasks hlt hz1 hz2
    · have hlt : j.val < i.val := by
        rcases Nat.lt_or_ge j.val i.val with h | h
        · exact h
        · exact absurd (Fin.ext (Nat.le_antisymm h hge)) hij
      exact cyclic_of_iter_eq tasks hlt hz2 hz1
  obtain ⟨k, hk, hcyc⟩ := hzyc
  rcases iter_name_mem tasks hres i.val t.name z1 hz1 with rfl | ⟨u, hu, rfl⟩
  · exact hacy t ht k hk hcyc
  · exact hacy u hu k hk hcyc

theorem hasRoot_of_reach (tasks : List TaskC) (hres : specRefsResolve tasks) :
    ∀ (fuel : Nat) (x : String), (∃ t ∈ tasks, t.name = x) →
      reachesRoot tasks fuel x = true → specHasRoot tasks := by
  intro fuel
  induction fuel with
  | zero =>
    intro x _ h
    exact absurd h (by simp [reachesRoot])
  | succ fuel ih =>
    intro x hx hreach
    cases hp : parentOf tasks x with
    | none =>
      obtain ⟨u, hu⟩ := findTask_isSome hx
      rw [parentOf, hu, Option.some_bind] at hp
      exact ⟨u, (findTask_mem hu).1, hp⟩
    | some p =>
      simp only [reachesRoot, hp] at hreach
      exact ih p (parent_mem_of_resolve tasks hres hp) hreach

theorem validate_ok_iff (tasks : List TaskC) :
    (validate_task_dependency_graph tasks).isOk = true
      ↔ tasks ≠ [] ∧ uniqueNamesCheck tasks = .ok ()
        ∧ resolveExtGo tasks tasks = .ok ()
        ∧ branchingCheck tasks = .ok () ∧ rootExtCheck tasks = .ok () := by
  rw [validate_task_dependency_graph]
  by_cases he : tasks.isEmpty = true
  · rw [if_pos he]
    simp [List.isEmpty_iff.mp he, Except.isOk, Except.toBool]
  · rw [if_neg he]
    have hne : tasks ≠ [] := fun h => he (by rw [h]; rfl)
    cases h1 : uniqueNamesCheck tasks with
    | error e => simp [h1, Except.isOk, Except.toBool]
    | ok u =>
      obtain rfl : u = () := rfl
      cases h2 : resolveExtGo tasks tasks with
      | error e => simp [h1, h2, Except.isOk, Except.toBool]
      | ok u =>
        obtain rfl : u = () := rfl
        cases h3 : branchingCheck tasks with
        | error e => simp [h1, h2, h3, Except.isOk, Except.toBool]
        | ok u =>
          obtain rfl : u = () := rfl
          cases h4 : rootExtCheck tasks with
          | error e => simp [h1, h2, h3, h4, Except.isOk, Except.toBool]
          | ok u =>
            obtain rfl : u = () := rfl
            simp [h1, h2, h3, h4, hne, Except.isOk, Except.toBool]

theorem resolve_spec_of_ok (tasks : List TaskC)
    (hok : resolveExtGo tasks tasks = .ok ()) : specRefsResolve tasks := by
  intro t ht p hp
  obtain ⟨parent, hpar, -⟩ := (resolveExtGo_ok_iff tasks tasks).mp hok t ht p hp
  obtain ⟨hm, hn⟩ := findTask_mem hpar
  exact ⟨parent, hm, hn⟩

theorem extMatch_of_ok (tasks : List TaskC) (hnd : specNamesUnique tasks)
    (hok : resolveExtGo tasks tasks = .ok ()) : specExtMatch tasks := by
  intro t ht parent hparent hp
  obtain ⟨parent', hpar', hext'⟩ :=
    (resolveExtGo_ok_iff tasks tasks).mp hok t ht parent.name hp
  obtain ⟨hm', hn'⟩ := findTask_mem hpar'
  have heq : parent' = parent := nodup_map_mem_eq hnd hm' hparent hn'
  rw [← heq]
  exact hext'

theorem resolve_ok_of_spec (tasks : List TaskC) (hres : specRefsResolve tasks)
    (hext : specExtMatch tasks) : resolveExtGo tasks tasks = .ok () := by
  rw [resolveExtGo_ok_iff]
  intro t ht p hp
  obtain ⟨u, hu⟩ := findTask_isSome (hres t ht p hp)
  obtain ⟨hm, hn⟩ := findTask_mem hu
  exact ⟨u, hu, hext t ht u hm (by rw [hp, hn])⟩

/-- C2 (amended): the validator accepts a task list exactly when the tasks
are non-empty with unique names, every `depends_on` resolves, parent output
extension matches child input extension on every edge, the parent pointers
are acyclic (each node having at most one parent by construction, the graph
is a branching — a forest of in-trees), and all root tasks share one input
extension; every accepted configuration has at least one root.  Weak
connectivity (a single component) is NOT required: the validator uses
`networkx.is_branching`, which admits forests with several roots. -/
theorem tf_C2_amended (tasks : List TaskC) :
    ((validate_task_dependency_graph tasks).isOk = true
      ↔ tasks ≠ [] ∧ specNamesUnique tasks ∧ specRefsResolve tasks
        ∧ specExtMatch tasks ∧ specAcyclic tasks ∧ specRootsShareExt tasks)
    ∧ ((validate_task_dependency_graph tasks).isOk = true → specHasRoot tasks) := by
  have hmain : (validate_task_dependency_graph tasks).isOk = true
      ↔ tasks ≠ [] ∧ specNamesUnique tasks ∧ specRefsResolve tasks
        ∧ specExtMatch tasks ∧ specAcyclic tasks ∧ specRootsShareExt tasks := by
    rw [validate_ok_iff]
    constructor
    · rintro ⟨hne, h1, h2, h3, h4⟩
      have hnd : specNamesUnique tasks := ((uniqueNamesGo_ok_iff [] tasks).mp h1).1
      exact ⟨hne, hnd, resolve_spec_of_ok tasks h2, extMatch_of_ok tasks hnd h2,
        specAcyclic_of_branchingCheck tasks h3, (rootExtCheck_ok_iff tasks).mp h4⟩
    · rintro ⟨hne, hnd, hres, hext, hacy, hshare⟩
      exact ⟨hne,
        (uniqueNamesGo_ok_iff [] tasks).mpr
          ⟨hnd, fun t _ => List.not_mem_nil t.name⟩,
        resolve_ok_of_spec tasks hres hext,
        branchingCheck_ok_of_acyclic tasks hres hacy,
        (rootExtCheck_ok_iff tasks).mpr hshare⟩
  refine ⟨hmain, ?_⟩
  intro hok
  obtain ⟨hne, h1, h2, h3, h4⟩ := (validate_ok_iff tasks).mp hok
  have hres := resolve_spec_of_ok tasks h2
  obtain ⟨t0, ht0⟩ : ∃ t, t ∈ tasks := by
    cases tasks with
    | nil => exact absurd rfl hne
    | cons a l => exact ⟨a, List.mem_cons_self a l⟩
  have hreach : reachesRoot tasks (tasks.length + 1) t0.name = true := by
    rw [branchingCheck] at h3
    by_cases hall : tasks.all
        (fun t => reachesRoot tasks (tasks.length + 1) t.name) = true
    · exact List.all_eq_true.mp hall t0 ht0
    · rw [if_neg hall] at h3
      exact absurd h3 (by simp)
  exact hasRoot_of_reach tasks hres _ t0.name ⟨t0, ht0, rfl⟩ hreach

/-- Witness for C2 (amended): a concrete two-task chain is accepted, and the
acceptance implies a root exists. -/
theorem tf_C2_amended_witness :
    (validate_task_dependency_graph
        [⟨"t1", none, ".txt", ".json"⟩, ⟨"t2", some "t1", ".json", ".csv"⟩]).isOk
      = true
    ∧ specHasRoot
        [⟨"t1", none, ".txt", ".json"⟩, ⟨"t2", some "t1", ".json", ".csv"⟩] := by
  have h := tf_C2_amended
    [⟨"t1", none, ".txt", ".json"⟩, ⟨"t2", some "t1", ".json", ".csv"⟩]
  have hok : (validate_task_dependency_graph
      [⟨"t1", none, ".txt", ".json"⟩, ⟨"t2", some "t1", ".json", ".csv"⟩]).isOk
      = true := by rfl
  exact ⟨hok, h.2 hok⟩

/-! ### `Pipeline._process_completed_files` (pipeline.py lines 235-254)

The harvest: stems completed by every terminal task are computed first
(`set.intersection` over the terminal tasks' output listings), then for
every task and every completed stem the file `<stem><output_ext>` is moved
into the user-visible `<output_root>/<task_name>/` when `keep_output` holds
and unlinked otherwise.  `Path.replace` and `Path.unlink` raise
`FileNotFoundError` when the file is missing.  The workspace holds each
task's internal output directory and the user-visible directory, as listings
of regular-file names keyed by task name. -/

/-- The harvest-relevant task fields. -/
structure HTask where
  name : String
  depends_on : Option String
  output_ext : String
  keep_output : Bool
  deriving DecidableEq, Repr

/-- `if task.depends_on` — Python falsiness again. -/
def pyDepH (t : HTask) : Option String :=
  match t.depends_on with
  | none => none
  | some s => if s = "" then none else some s

/-- `PipelineConfig.terminal_tasks` (models.py): tasks no other task depends
on. -/
def terminal_tasks (tasks : List HTask) : List HTask :=
  tasks.filter (fun t => !((tasks.filterMap pyDepH).contains t.name))

/-- Workspace state: per-task internal output directories and user-visible
output directories (lists of regular-file names keyed by task name). -/
structure Ws where
  taskDirs : List (String × List String)
  userDirs : List (String × List String)
  deriving DecidableEq, Repr

/-- Keyed lookup. -/
def ldGet (l : List (String × List String)) (k : String) : Option (List String) :=
  match l with
  | [] => none
  | (k', v) :: rest => if k' = k then some v else ldGet rest k

/-- Update the entry of an existing key. -/
def ldUpdate (l : List (String × List String)) (k : String)
    (f : List String → List String) : List (String × List String) :=
  match l with
  | [] => []
  | (k', v) :: rest =>
    if k' = k then (k', f v) :: rest else (k', v) :: ldUpdate rest k f

/-- Update the entry of a key, inserting it when absent. -/
def ldUpsert (l : List (String × List String)) (k : String)
    (f : List String → List String) : List (String × List String) :=
  match l with
  | [] => [(k, f [])]
  | (k', v) :: rest =>
    if k' = k then (k', f v) :: rest else (k', v) :: ldUpsert rest k f

/-- Contents of a task's internal output directory. -/
def dirOf (ws : Ws) (n : String) : List String :=
  (ldGet ws.taskDirs n).getD []

/-- Contents of a task's user-visible output directory. -/
def userDirOf (ws : Ws) (n : String) : List String :=
  (ldGet ws.userDirs n).getD []

/-- `Path.replace` onto the destination overwrites, so the destination
directory gains the name at most once. -/
def addFile (dir : List String) (fname : String) : List String :=
  if fname ∈ dir then dir else dir ++ [fname]

/-- One terminal task's completed stems:
`{f.name.removesuffix(ext) for f if f.name.endswith(ext)}`. -/
def idsOfTask (t : HTask) (dir : List String) : List String :=
  ((dir.filter (fun f => sEndsWith f t.output_ext)).map
    (fun f => sRemoveSuffix f t.output_ext)).dedup

/-- `set.intersection(*completed_file_ids_by_task)` over the terminal tasks.
With no terminal task Python raises `TypeError`; that case is unreachable
for a validated pipeline and modelled as the empty list. -/
def completedIds (tasks : List HTask) (ws : Ws) : List String :=
  match terminal_tasks tasks with
  | [] => []
  | t :: rest =>
    rest.foldl
      (fun acc t' => acc.filter (fun id => (idsOfTask t' (dirOf ws t'.name)).contains id))
      (idsOfTask t (dirOf ws t.name))

/-- Move or delete one task's output for one completed stem: the body of the
nested harvest loop.  A missing file raises `FileNotFoundError` (from
`Path.replace` or `Path.unlink`). -/
def moveOne (t : HTask) (id : String) (ws : Ws) : Except PyErr Ws :=
  let fname := id ++ t.output_ext
  if fname ∈ dirOf ws t.name then
    let ws' : Ws :=
      { ws with taskDirs := ldUpdate ws.taskDirs t.name (fun d => d.erase fname) }
    if t.keep_output then
      .ok { ws' with userDirs := ldUpsert ws'.userDirs t.name (fun d => addFile d fname) }
    else
      .ok ws'
  else
    .error .fileNotFoundError

/-- `for file_id in completed_file_ids` (inner loop, one task). -/
def harvestTask (ids : List String) (t : HTask) (ws : Ws) : Except PyErr Ws :=
  match ids with
  | [] => .ok ws
  | id :: rest =>
    match moveOne t id ws with
    | .error e => .error e
    | .ok ws' => harvestTask rest t ws'

/-- `for task in self._config.tasks` (outer loop). -/
def harvestAll (ids : List String) (tasks : List HTask) (ws : Ws) : Except PyErr Ws :=
  match tasks with
  | [] => .ok ws
  | t :: rest =>
    match harvestTask ids t ws with
    | .error e => .error e
    | .ok ws' => harvestAll ids rest ws'

/-- `Pipeline._process_completed_files`, lines 235-254 (the cleanup of
intermediate data; the subsequent completion recording of lines 256-267 is
outside the cited range). -/
def _process_completed_files (tasks : List HTask) (ws : Ws) : Except PyErr Ws :=
  harvestAll (completedIds tasks ws) tasks ws

/-- C4 counterexample: stem `x` is complete (the only terminal task `B` has
`x.out`), but the non-terminal task `A` is missing `x.mid`; the harvest
raises `FileNotFoundError` instead of tolerating the missing file. -/
theorem tf_C4_counterexample :
    completedIds
        [⟨"A", none, ".mid", true⟩, ⟨"B", some "A", ".out", true⟩]
        ⟨[("A", []), ("B", ["x.out"])], [("A", []), ("B", [])]⟩
      = ["x"]
    ∧ _process_completed_files
        [⟨"A", none, ".mid", true⟩, ⟨"B", some "A", ".out", true⟩]
        ⟨[("A", []), ("B", ["x.out"])], [("A", []), ("B", [])]⟩
      = .error .fileNotFoundError := by
  constructor <;> rfl

theorem sRemoveSuffix_append (s t : String) : sRemoveSuffix (s ++ t) t = s := by
  rw [sRemoveSuffix, if_pos (sEndsWith_append s t)]
  apply String.ext
  show (s ++ t).data.take ((s ++ t).data.length - t.data.length) = s.data
  rw [String.data_append, List.length_append,
    show s.data.length + t.data.length - t.data.length = s.data.length from by omega]
  exact List.take_left s.data t.data

theorem sRemoveSuffix_append_of_endsWith {f t : String}
    (h : sEndsWith f t = true) : sRemoveSuffix f t ++ t = f := by
  obtain ⟨u, hu⟩ := sEndsWith_iff.mp h
  have hf : f = (⟨u⟩ : String) ++ t := by
    apply String.ext
    rw [String.data_append]
    exact hu.symm
  rw [hf, sRemoveSuffix_append]

theorem containsBridge {l : List String} {x : String} :
    l.contains x = true ↔ x ∈ l := by
  simp

theorem mem_idsOfTask {t : HTask} {dir : List String} {id : String} :
    id ∈ idsOfTask t dir ↔ (id ++ t.output_ext) ∈ dir := by
  rw [idsOfTask, List.mem_dedup, List.mem_map]
  constructor
  · rintro ⟨f, hf, rfl⟩
    obtain ⟨hfd, hfe⟩ := List.mem_filter.mp hf
    rw [sRemoveSuffix_append_of_endsWith hfe]
    exact hfd
  · intro hmem
    exact ⟨id ++ t.output_ext,
      List.mem_filter.mpr ⟨hmem, sEndsWith_append id t.output_ext⟩,
      sRemoveSuffix_append id t.output_ext⟩

theorem mem_foldl_inter {α : Type} (g : α → List String) (ls : List α) :
    ∀ (acc : List String) (x : String),
      x ∈ ls.foldl (fun acc a => acc.filter (fun id => (g a).contains id)) acc
        ↔ x ∈ acc ∧ ∀ a ∈ ls, x ∈ g a := by
  induction ls with
  | nil =>
    intro acc x
    simp
  | cons l ls ih =>
    intro acc x
    rw [List.foldl_cons, ih]
    rw [List.mem_filter]
    constructor
    · rintro ⟨⟨hacc, hcl⟩, hall⟩
      refine ⟨hacc, ?_⟩
      intro l' hl'
      rcases List.mem_cons.mp hl' with rfl | hl''
      · exact containsBridge.mp hcl
      · exact hall l' hl''
    · rintro ⟨hacc, hall⟩
      exact ⟨⟨hacc, containsBridge.mpr (hall l (List.mem_cons_self l ls))⟩,
        fun l' hl' => hall l' (List.mem_cons_of_mem l hl')⟩

theorem nodup_foldl_inter {α : Type} (g : α → List String) (ls : List α) :
    ∀ acc : List String, acc.Nodup →
      (ls.foldl (fun acc a => acc.filter (fun id => (g a).contains id)) acc).Nodup := by
  induction ls with
  | nil => intro acc h; exact h
  | cons l ls ih =>
    intro acc h
    rw [List.foldl_cons]
    exact ih _ (List.Nodup.filter _ h)

theorem mem_completedIds {tasks : List HTask} {ws : Ws} {id : String} :
    id ∈ completedIds tasks ws
      ↔ terminal_tasks tasks ≠ []
        ∧ ∀ t ∈ terminal_tasks tasks, (id ++ t.output_ext) ∈ dirOf ws t.name := by
  rw [completedIds]
  cases hT : terminal_tasks tasks with
  | nil => simp
  | cons t rest =>
    rw [mem_foldl_inter (fun t' => idsOfTask t' (dirOf ws t'.name)) rest]
    constructor
    · rintro ⟨hacc, hall⟩
      refine ⟨by simp, ?_⟩
      intro t' ht'
      rcases List.mem_cons.mp ht' with rfl | hmem
      · exact mem_idsOfTask.mp hacc
      · exact mem_idsOfTask.mp (hall t' hmem)
    · rintro ⟨-, hall⟩
      exact ⟨mem_idsOfTask.mpr (hall t (List.mem_cons_self t rest)),
        fun t' ht' => mem_idsOfTask.mpr (hall t' (List.mem_cons_of_mem t ht'))⟩

theorem completedIds_nodup (tasks : List HTask) (ws : Ws) :
    (completedIds tasks ws).Nodup := by
  rw [completedIds]
  cases terminal_tasks tasks with
  | nil => exact List.nodup_nil
  | cons t rest =>
    exact nodup_foldl_inter (fun t' => idsOfTask t' (dirOf ws t'.name)) rest _
      (List.nodup_dedup _)

theorem ldGet_ldUpdate_self (l : List (String × List String)) (k : String)
    (f : List String → List String) :
    ldGet (ldUpdate l k f) k = (ldGet l k).map f := by
  induction l with
  | nil => rfl
  | cons p rest ih =>
    obtain ⟨a, v⟩ := p
    by_cases hak : a = k
    · simp [ldUpdate, ldGet, hak]
    · simp [ldUpdate, ldGet, hak, ih]

theorem ldGet_ldUpdate_ne (l : List (String × List String)) (k : String)
    (f : List String → List String) (k' : String) (h : k' ≠ k) :
    ldGet (ldUpdate l k f) k' = ldGet l k' := by
  induction l with
  | nil => rfl
  | cons p rest ih =>
    obtain ⟨a, v⟩ := p
    by_cases hak : a = k
    · have hkk' : ¬ k = k' := fun he => h he.symm
      simp [ldUpdate, ldGet, hak, hkk']
    · by_cases hak' : a = k'
      · simp [ldUpdate, ldGet, hak, hak', h]
      · simp [ldUpdate, ldGet, hak, hak', ih]

theorem ldGet_ldUpsert_self (l : List (String × List String)) (k : String)
    (f : List String → List String) :
    ldGet (ldUpsert l k f) k = some (f ((ldGet l k).getD [])) := by
  induction l with
  | nil => simp [ldUpsert, ldGet]
  | cons p rest ih =>
    obtain ⟨a, v⟩ := p
    by_cases hak : a = k
    · simp [ldUpsert, ldGet, hak]
    · simp [ldUpsert, ldGet, hak, ih]

theorem ldGet_ldUpsert_ne (l : List (String × List String)) (k : String)
    (f : List String → List String) (k' : String) (h : k' ≠ k) :
    ldGet (ldUpsert l k f) k' = ldGet l k' := by
  induction l with
  | nil =>
    have : ¬ k = k' := fun he => h he.symm
    simp [ldUpsert, ldGet, this]
  | cons p rest ih =>
    obtain ⟨a, v⟩ := p
    by_cases hak : a = k
    · have hkk' : ¬ k = k' := fun he => h he.symm
      simp [ldUpsert, ldGet, hak, hkk']
    · by_cases hak' : a = k'
      · simp [ldUpsert, ldGet, hak, hak', h]
      · simp [ldUpsert, ldGet, hak, hak', ih]

theorem moveOne_ok {t : HTask} {id : String} {ws ws' : Ws}
    (h : moveOne t id ws = .ok ws') :
    (id ++ t.output_ext) ∈ dirOf ws t.name
    ∧ dirOf ws' t.name = (dirOf ws t.name).erase (id ++ t.output_ext)
    ∧ (t.keep_output = true →
        userDirOf ws' t.name = addFile (userDirOf ws t.name) (id ++ t.output_ext))
    ∧ (t.keep_output = false → userDirOf ws' t.name = userDirOf ws t.name)
    ∧ (∀ n, n ≠ t.name →
        dirOf ws' n = dirOf ws n ∧ userDirOf ws' n = userDirOf ws n) := by
  rw [moveOne] at h
  by_cases hmem : (id ++ t.output_ext) ∈ dirOf ws t.name
  case neg =>
    rw [if_neg hmem] at h
    exact absurd h (by simp)
  rw [if_pos hmem] at h
  have hd : ∃ d, ldGet ws.taskDirs t.name = some d := by
    cases hq : ldGet ws.taskDirs t.name with
    | none =>
      rw [dirOf, hq] at hmem
      exact absurd hmem (by simp)
    | some d => exact ⟨d, rfl⟩
  obtain ⟨d, hd⟩ := hd
  have hdir : dirOf ws t.name = d := by rw [dirOf, hd]; rfl
  cases hkeep : t.keep_output with
  | true =>
    simp only [hkeep, if_true] at h
    injection h with h
    subst h
    refine ⟨hmem, ?_, ?_, ?_, ?_⟩
    · rw [dirOf, ldGet_ldUpdate_self, hd, hdir]
      rfl
    · intro _
      rw [userDirOf, ldGet_ldUpsert_self, Option.getD_some, userDirOf]
    · intro hcontra
      exact absurd hcontra (by simp)
    · intro n hn
      constructor
      · rw [dirOf, dirOf, ldGet_ldUpdate_ne _ _ _ n hn]
      · rw [userDirOf, userDirOf, ldGet_ldUpsert_ne _ _ _ n hn]
  | false =>
    simp only [hkeep, if_false] at h
    injection h with h
    subst h
    refine ⟨hmem, ?_, ?_, ?_, ?_⟩
    · rw [dirOf, ldGet_ldUpdate_self, hd, hdir]
      rfl
    · intro hcontra
      exact absurd hcontra (by simp)
    · intro _
      rw [userDirOf, userDirOf]
    · intro n hn
      constructor
      · rw [dirOf, dirOf, ldGet_ldUpdate_ne _ _ _ n hn]
      · rw [userDirOf, userDirOf]

theorem addFile_mem {dir : List String} {fname x : String} :
    x ∈ addFile dir fname ↔ x ∈ dir ∨ x = fname := by
  rw [addFile]
  by_cases hm : fname ∈ dir
  · rw [if_pos hm]
    constructor
    · exact Or.inl
    · rintro (h | rfl)
      · exact h
      · exact hm
  · rw [if_neg hm]
    simp [List.mem_append]

theorem moveOne_isOk {t : HTask} {id : String} {ws : Ws}
    (hmem : (id ++ t.output_ext) ∈ dirOf ws t.name) :
    ∃ ws₁, moveOne t id ws = .ok ws₁ := by
  rw [moveOne, if_pos hmem]
  by_cases hk : t.keep_output = true
  · rw [if_pos hk]
    exact ⟨_, rfl⟩
  · rw [if_neg hk]
    exact ⟨_, rfl⟩

theorem harvestTask_err (ids : List String) (t : HTask) :
    ∀ ws : Ws, (∃ id ∈ ids, (id ++ t.output_ext) ∉ dirOf ws t.name) →
      ∃ e, harvestTask ids t ws = .error e := by
  induction ids with
  | nil =>
    intro ws h
    obtain ⟨id, hid, -⟩ := h
    exact absurd hid (List.not_mem_nil id)
  | cons id rest ih =>
    intro ws h
    obtain ⟨id', hid', hmiss⟩ := h
    by_cases hmem : (id ++ t.output_ext) ∈ dirOf ws t.name
    case neg =>
      have hmv : moveOne t id ws = .error .fileNotFoundError := by
        rw [moveOne, if_neg hmem]
      exact ⟨.fileNotFoundError, by rw [harvestTask, hmv]⟩
    case pos =>
      obtain ⟨ws₁, hmv⟩ := moveOne_isOk hmem
      obtain ⟨-, hdir, -, -, -⟩ := moveOne_ok hmv
      rcases List.mem_cons.mp hid' with rfl | hrest
      · exact (hmiss hmem).elim
      · have hmiss' : (id' ++ t.output_ext) ∉ dirOf ws₁ t.name := by
          rw [hdir]
          intro hc
          exact hmiss (List.mem_of_mem_erase hc)
        obtain ⟨e, he⟩ := ih ws₁ ⟨id', hrest, hmiss'⟩
        exact ⟨e, by rw [harvestTask, hmv]; exact he⟩

theorem harvestTask_frame (ids : List String) (t : HTask) :
    ∀ ws ws₁ : Ws, harvestTask ids t ws = .ok ws₁ →
      ∀ n, n ≠ t.name →
        dirOf ws₁ n = dirOf ws n ∧ userDirOf ws₁ n = userDirOf ws n := by
  induction ids with
  | nil =>
    intro ws ws₁ h n _
    injection h with h
    subst h
    exact ⟨rfl, rfl⟩
  | cons id rest ih =>
    intro ws ws₁ h n hn
    rw [harvestTask] at h
    cases hmv : moveOne t id ws with
    | error e =>
      rw [hmv] at h
      exact absurd h (by simp)
    | ok w =>
      rw [hmv] at h
      obtain ⟨-, -, -, -, hframe⟩ := moveOne_ok hmv
      obtain ⟨h1, h2⟩ := hframe n hn
      obtain ⟨h3, h4⟩ := ih w ws₁ h n hn
      exact ⟨h3.trans h1, h4.trans h2⟩

theorem harvestTask_ok (t : HTask) (ids : List String) (hids : ids.Nodup) :
    ∀ ws : Ws, (dirOf ws t.name).Nodup →
      (∀ id ∈ ids, (id ++ t.output_ext) ∈ dirOf ws t.name) →
      ∃ ws', harvestTask ids t ws = .ok ws'
        ∧ (∀ f, f ∈ dirOf ws' t.name
            ↔ f ∈ dirOf ws t.name ∧ ∀ id ∈ ids, f ≠ id ++ t.output_ext)
        ∧ (t.keep_output = true → ∀ x,
            x ∈ userDirOf ws' t.name
              ↔ x ∈ userDirOf ws t.name ∨ ∃ id ∈ ids, x = id ++ t.output_ext)
        ∧ (t.keep_output = false → userDirOf ws' t.name = userDirOf ws t.name)
        ∧ (∀ n, n ≠ t.name →
            dirOf ws' n = dirOf ws n ∧ userDirOf ws' n = userDirOf ws n) := by
  induction ids with
  | nil =>
    intro ws _ _
    refine ⟨ws, rfl, ?_, ?_, fun _ => rfl, fun n _ => ⟨rfl, rfl⟩⟩
    · intro f
      simp
    · intro _ x
      simp
  | cons id rest ih =>
    intro ws hnd hall
    obtain ⟨hidni, hrest_nd⟩ := List.nodup_cons.mp hids
    have hmem := hall id (List.mem_cons_self id rest)
    obtain ⟨ws₁, hmv⟩ := moveOne_isOk hmem
    obtain ⟨-, hdir₁, huser₁t, huser₁f, hframe₁⟩ := moveOne_ok hmv
    have hnd₁ : (dirOf ws₁ t.name).Nodup := by
      rw [hdir₁]
      exact hnd.erase _
    have hall₁ : ∀ id' ∈ rest, (id' ++ t.output_ext) ∈ dirOf ws₁ t.name := by
      intro id' hid'
      rw [hdir₁]
      refine (List.Nodup.mem_erase_iff hnd).mpr ⟨?_, hall id' (List.mem_cons_of_mem id hid')⟩
      intro he
      exact hidni (strAppend_right_cancel he ▸ hid')
    obtain ⟨ws', hh, hdir', huser't, huser'f, hframe'⟩ := ih hrest_nd ws₁ hnd₁ hall₁
    refine ⟨ws', ?_, ?_, ?_, ?_, ?_⟩
    · rw [harvestTask, hmv]
      exact hh
    · intro f
      rw [hdir' f, hdir₁, List.Nodup.mem_erase_iff hnd]
      constructor
      · rintro ⟨⟨hne, hf⟩, hrest⟩
        refine ⟨hf, ?_⟩
        intro id' hid'
        rcases List.mem_cons.mp hid' with rfl | h
        · exact hne
        · exact hrest id' h
      · rintro ⟨hf, hallne⟩
        exact ⟨⟨hallne id (List.mem_cons_self id rest), hf⟩,
          fun id' h => hallne id' (List.mem_cons_of_mem id h)⟩
    · intro hk x
      rw [huser't hk x, huser₁t hk, addFile_mem]
      constructor
      · rintro ((hx | rfl) | ⟨id', hid', rfl⟩)
        · exact Or.inl hx
        · exact Or.inr ⟨id, List.mem_cons_self id rest, rfl⟩
        · exact Or.inr ⟨id', List.mem_cons_of_mem id hid', rfl⟩
      · rintro (hx | ⟨id', hid', rfl⟩)
        · exact Or.inl (Or.inl hx)
        · rcases List.mem_cons.mp hid' with rfl | h
          · exact Or.inl (Or.inr rfl)
          · exact Or.inr ⟨id', h, rfl⟩
    · intro hk
      rw [huser'f hk, huser₁f hk]
    · intro n hn
      obtain ⟨hd1, hu1⟩ := hframe₁ n hn
      obtain ⟨hd2, hu2⟩ := hframe' n hn
      exact ⟨hd2.trans hd1, hu2.trans hu1⟩

theorem harvestAll_err (ids : List String) :
    ∀ (tasks : List HTask) (ws : Ws), (tasks.map HTask.name).Nodup →
      (∃ t ∈ tasks, ∃ id ∈ ids, (id ++ t.output_ext) ∉ dirOf ws t.name) →
      ∃ e, harvestAll ids tasks ws = .error e := by
  intro tasks
  induction tasks with
  | nil =>
    intro ws _ h
    obtain ⟨t, ht, -⟩ := h
    exact absurd ht (List.not_mem_nil t)
  | cons t rest ih =>
    intro ws hnames hmiss
    have hnotin : t.name ∉ rest.map HTask.name :=
      (List.nodup_cons.mp (by rw [List.map_cons] at hnames; exact hnames)).1
    have hnames' : (rest.map HTask.name).Nodup :=
      (List.nodup_cons.mp (by rw [List.map_cons] at hnames; exact hnames)).2
    obtain ⟨t', ht', id, hid, hnm⟩ := hmiss
    rcases List.mem_cons.mp ht' with rfl | hmem
    · obtain ⟨e, he⟩ := harvestTask_err ids t' ws ⟨id, hid, hnm⟩
      exact ⟨e, by rw [harvestAll, he]⟩
    · cases hres : harvestTask ids t ws with
      | error e => exact ⟨e, by rw [harvestAll, hres]⟩
      | ok ws₁ =>
        have hne : t'.name ≠ t.name := by
          intro he
          exact hnotin (he ▸ List.mem_map_of_mem HTask.name hmem)
        have hnm₁ : (id ++ t'.output_ext) ∉ dirOf ws₁ t'.name := by
          rw [(harvestTask_frame ids t ws ws₁ hres t'.name hne).1]
          exact hnm
        obtain ⟨e, he⟩ := ih ws₁ hnames' ⟨t', hmem, id, hid, hnm₁⟩
        exact ⟨e, by rw [harvestAll, hres]; exact he⟩

theorem harvestAll_ok (ids : List String) (hids : ids.Nodup) :
    ∀ (tasks : List HTask) (ws : Ws), (tasks.map HTask.name).Nodup →
      (∀ t ∈ tasks, (dirOf ws t.name).Nodup) →
      (∀ t ∈ tasks, ∀ id ∈ ids, (id ++ t.output_ext) ∈ dirOf ws t.name) →
      ∃ ws', harvestAll ids tasks ws = .ok ws'
        ∧ (∀ t ∈ tasks,
            (∀ f, f ∈ dirOf ws' t.name
              ↔ f ∈ dirOf ws t.name ∧ ∀ id ∈ ids, f ≠ id ++ t.output_ext)
            ∧ (t.keep_output = true → ∀ x, x ∈ userDirOf ws' t.name
                ↔ x ∈ userDirOf ws t.name ∨ ∃ id ∈ ids, x = id ++ t.output_ext)
            ∧ (t.keep_output = false → userDirOf ws' t.name = userDirOf ws t.name))
        ∧ (∀ n, (∀ t ∈ tasks, n ≠ t.name) →
            dirOf ws' n = dirOf ws n ∧ userDirOf ws' n = userDirOf ws n) := by
  intro tasks
  induction tasks with
  | nil =>
    intro ws _ _ _
    exact ⟨ws, rfl, fun t ht => absurd ht (List.not_mem_nil t),
      fun n _ => ⟨rfl, rfl⟩⟩
  | cons t rest ih =>
    intro ws hnames hdirs hall
    have hnotin : t.name ∉ rest.map HTask.name :=
      (List.nodup_cons.mp (by rw [List.map_cons] at hnames; exact hnames)).1
    have hnames' : (rest.map HTask.name).Nodup :=
      (List.nodup_cons.mp (by rw [List.map_cons] at hnames; exact hnames)).2
    have hneq : ∀ t' ∈ rest, t'.name ≠ t.name := by
      intro t' ht' he
      exact hnotin (he ▸ List.mem_map_of_mem HTask.name ht')
    obtain ⟨ws₁, h1, hdirch, husert, huserf, hframe₁⟩ :=
      harvestTask_ok t ids hids ws (hdirs t (List.mem_cons_self t rest))
        (hall t (List.mem_cons_self t rest))
    have hdirs₁ : ∀ t' ∈ rest, (dirOf ws₁ t'.name).Nodup := by
      intro t' ht'
      rw [(hframe₁ t'.name (hneq t' ht')).1]
      exact hdirs t' (List.mem_cons_of_mem t ht')
    have hall₁ : ∀ t' ∈ rest, ∀ id ∈ ids, (id ++ t'.output_ext) ∈ dirOf ws₁ t'.name := by
      intro t' ht' id hid
      rw [(hframe₁ t'.name (hneq t' ht')).1]
      exact hall t' (List.mem_cons_of_mem t ht') id hid
    obtain ⟨ws', h2, hch', hframe'⟩ := ih ws₁ hnames' hdirs₁ hall₁
    refine ⟨ws', ?_, ?_, ?_⟩
    · rw [harvestAll, h1]
      exact h2
    · intro t' ht'
      rcases List.mem_cons.mp ht' with rfl | hmem
      · have hfr := hframe' t'.name (fun u hu => fun he => hneq u hu he.symm)
        refine ⟨?_, ?_, ?_⟩
        · intro f
          rw [hfr.1]
          exact hdirch f
        · intro hk x
          rw [hfr.2]
          exact husert hk x
        · intro hk
          rw [hfr.2]
          exact huserf hk
      · obtain ⟨c1, c2, c3⟩ := hch' t' hmem
        have hfr := hframe₁ t'.name (hneq t' hmem)
        refine ⟨?_, ?_, ?_⟩
        · intro f
          rw [c1 f, hfr.1]
        · intro hk x
          rw [c2 hk x, hfr.2]
        · intro hk
          rw [c3 hk, hfr.2]
    · intro n hn
      have h1f := hframe₁ n (hn t (List.mem_cons_self t rest))
      have h2f := hframe' n (fun u hu => hn u (List.mem_cons_of_mem t hu))
      exact ⟨h2f.1.trans h1f.1, h2f.2.trans h1f.2⟩

/-- C4 (amended): during completion harvest over the stems completed by
every terminal task, when every task's `<stem><output_ext>` file is present
the harvest succeeds and, for each completed stem, each task's file is
removed from the internal directory and appears in the user-visible
directory exactly when `keep_output` is true (with the user directory
untouched for `keep_output = false` tasks); but a missing
`<stem><output_ext>` for any task — terminal or not — makes the harvest
raise `FileNotFoundError` instead of being tolerated. -/
theorem tf_C4_amended (tasks : List HTask) (ws : Ws)
    (hnames : (tasks.map HTask.name).Nodup)
    (hdirs : ∀ t ∈ tasks, (dirOf ws t.name).Nodup) :
    ((∀ t ∈ tasks, ∀ id ∈ completedIds tasks ws,
        (id ++ t.output_ext) ∈ dirOf ws t.name) →
      ∃ ws', _process_completed_files tasks ws = .ok ws'
        ∧ ∀ t ∈ tasks,
            (∀ id ∈ completedIds tasks ws,
              (id ++ t.output_ext) ∉ dirOf ws' t.name
              ∧ (t.keep_output = true → (id ++ t.output_ext) ∈ userDirOf ws' t.name))
            ∧ (t.keep_output = false → userDirOf ws' t.name = userDirOf ws t.name))
    ∧ ((∃ t ∈ tasks, ∃ id ∈ completedIds tasks ws,
        (id ++ t.output_ext) ∉ dirOf ws t.name) →
      ∃ e, _process_completed_files tasks ws = .error e)
    ∧ (∀ id, id ∈ completedIds tasks ws
        ↔ terminal_tasks tasks ≠ []
          ∧ ∀ t ∈ terminal_tasks tasks, (id ++ t.output_ext) ∈ dirOf ws t.name) := by
  refine ⟨?_, ?_, fun id => mem_completedIds⟩
  · intro hall
    obtain ⟨ws', h1, hch, -⟩ :=
      harvestAll_ok (completedIds tasks ws) (completedIds_nodup tasks ws)
        tasks ws hnames hdirs hall
    refine ⟨ws', h1, ?_⟩
    intro t ht
    obtain ⟨c1, c2, c3⟩ := hch t ht
    refine ⟨?_, c3⟩
    intro id hid
    constructor
    · intro hc
      exact ((c1 _).mp hc).2 id hid rfl
    · intro hk
      exact ((c2 hk _).mpr (Or.inr ⟨id, hid, rfl⟩))
  · intro hmiss
    exact harvestAll_err (completedIds tasks ws) tasks ws hnames hmiss

/-- Witness for C4 (amended) on a concrete two-task workspace where stem `x`
is complete and both files exist: the harvest succeeds. -/
theorem tf_C4_amended_witness :
    (_process_completed_files
        [⟨"A", none, ".mid", false⟩, ⟨"B", some "A", ".out", true⟩]
        ⟨[("A", ["x.mid"]), ("B", ["x.out"])], [("B", [])]⟩).isOk = true := by
  obtain ⟨ws', h1, -⟩ := (tf_C4_amended
    [⟨"A", none, ".mid", false⟩, ⟨"B", some "A", ".out", true⟩]
    ⟨[("A", ["x.mid"]), ("B", ["x.out"])], [("B", [])]⟩
    (by decide) (by decide)).1 (by decide)
  rw [h1]
  rfl

end Tigerflow
